import Mathlib

/-!
Verification of the sstables-rs CORE against its specification.

The development shallowly embeds the Rust sources of the repository:

* `src/sstables/src/cbor.rs`   — CBOR subset codec, canonical comparison,
  sort, binary search (`write_cbor_head`, `read_cbor_head_u64`,
  `read_cbor_bytes`, `read_cbor_text`, `cbor_cmp`, `sort_text`,
  `binary_search_text_first`, `step_back_for_duplicates`);
* `src/sstables/src/read.rs`   — byte-stream primitives (`take_byte`,
  `take_byte_array`, `take_byte_slice`);
* `src/sstables/src/sstable_writer.rs` — the data/index pair writer
  (`SSTableWriterAppend::append` for `(&str, &str)`);
* `src/sstables/src/sstable_reader.rs` — the streaming reader, its
  iterator, and the index loader;
* `src/cli/src/cmd/get.rs`     — the two-path `get` engine;
* `src/cli/src/merge.rs`       — the k-way heap merge engine.

Machine integers are modelled as `Nat` with explicit bounds (`< 2 ^ 64`
for `u64`/`usize`, `< 256` for `u8`).  A Rust `&str` / `String` is
modelled by its UTF-8 byte sequence (`List Nat`) together with the
executable validity predicate `isValidUtf8` that mirrors the RFC 3629
ranges checked by `String::from_utf8`.  Byte streams are `List Nat`;
reading returns the parsed value together with the unread suffix, and
failure is an `Except` error carrying the `io::ErrorKind` distinction
the sources branch on (`UnexpectedEof` versus everything else).
-/

namespace SSTables

/-- The `io::ErrorKind` distinction the repository's readers branch on:
`UnexpectedEof` (from `read_exact` hitting end of data) versus any other
kind (e.g. the `Other` kind produced for invalid UTF-8). -/
inductive RErr where
  | eof : RErr
  | other : RErr
deriving DecidableEq, Repr

/-- Major types for CBOR data items (`MajorType` in `cbor.rs`), each
holding the value of its high three bits. -/
inductive MajorType where
  | unsignedInteger
  | negativeInteger
  | bytes
  | text
  | array
  | object
  | semanticTag
  | noContentType
deriving DecidableEq, Repr

/-- `MajorType::as_u8`: the numeric value of the three high bits. -/
def MajorType.asU8 : MajorType → Nat
  | .unsignedInteger => 0x00
  | .negativeInteger => 0x20
  | .bytes => 0x40
  | .text => 0x60
  | .array => 0x80
  | .object => 0xA0
  | .semanticTag => 0xC0
  | .noContentType => 0xE0

/-- `ExtendedSize` in `cbor.rs`: how many bytes after the initial byte
hold the value. -/
inductive ExtendedSize where
  | embedded
  | u8
  | u16
  | u32
  | u64
deriving DecidableEq, Repr

/-- `ExtendedSize::from_u8`: mask the low five bits, map 24–27 to the
wide forms and everything else to `Embedded`. -/
def ExtendedSize.fromU8 (value : Nat) : ExtendedSize :=
  let v := value &&& 31
  if 24 ≤ v ∧ v ≤ 27 then
    if v = 24 then .u8 else if v = 25 then .u16 else if v = 26 then .u32 else .u64
  else .embedded

/-- `get_embedded_value`: the low five bits of a byte. -/
def getEmbeddedValue (byte : Nat) : Nat := byte &&& 31

/-- `get_embedded_value_for_u64` from `cbor.rs`. -/
def getEmbeddedValueForU64 (value : Nat) : Nat :=
  if value ≤ 23 then value
  else if value ≤ 255 then 24
  else if value ≤ 65535 then 25
  else if value ≤ 4294967295 then 26
  else 27

/-- `get_num_bytes_for_u64` from `cbor.rs`. -/
def getNumBytesForU64 (value : Nat) : Nat :=
  if value ≤ 23 then 0
  else if value ≤ 255 then 1
  else if value ≤ 65535 then 2
  else if value ≤ 4294967295 then 4
  else 8

/-- `u64::to_be_bytes`: the eight big-endian base-256 digits of a `u64`. -/
def toBeBytes (v : Nat) : List Nat :=
  [v / 2 ^ 56 % 256, v / 2 ^ 48 % 256, v / 2 ^ 40 % 256, v / 2 ^ 32 % 256,
   v / 2 ^ 24 % 256, v / 2 ^ 16 % 256, v / 2 ^ 8 % 256, v % 256]

/-- `write_cbor_head`: the initial byte `major | embedded`, followed by
the trailing `num_bytes` big-endian bytes of the value. -/
def writeCborHead (majorType : MajorType) (value : Nat) : List Nat :=
  let numBytes := getNumBytesForU64 value
  (majorType.asU8 ||| getEmbeddedValueForU64 value) ::
    (if numBytes > 0 then (toBeBytes value).drop (8 - numBytes) else [])

/-- `write_cbor_text`: head with major `Text` and the UTF-8 byte length,
then the bytes. -/
def writeCborText (s : List Nat) : List Nat :=
  writeCborHead .text s.length ++ s

/-- `write_cbor_bytes`: head with major `Bytes` and the length, then the
bytes. -/
def writeCborBytes (bs : List Nat) : List Nat :=
  writeCborHead .bytes bs.length ++ bs

/-- `write_cbor_unsigned_integer`: just a head with major
`UnsignedInteger`. -/
def writeCborUnsignedInteger (value : Nat) : List Nat :=
  writeCborHead .unsignedInteger value

/-- `take_byte` from `read.rs`: one byte or `UnexpectedEof`. -/
def takeByte (l : List Nat) : Except RErr (Nat × List Nat) :=
  match l with
  | [] => .error .eof
  | b :: rest => .ok (b, rest)

/-- `take_byte_slice` (and `take_byte_array`) from `read.rs`:
`read_exact` of `n` bytes, `UnexpectedEof` when fewer remain. -/
def takeByteSlice (n : Nat) (l : List Nat) : Except RErr (List Nat × List Nat) :=
  if l.length < n then .error .eof else .ok (l.take n, l.drop n)

/-- Big-endian recomposition, as done by `uN::from_be_bytes`. -/
def fromBeBytes (bs : List Nat) : Nat :=
  bs.foldl (fun acc b => acc * 256 + b) 0

/-- `read_cbor_head_u64`: dispatch on the size class of the initial byte
`byte`, consuming 0/1/2/4/8 following bytes. -/
def readCborHeadU64 (byte : Nat) (l : List Nat) : Except RErr (Nat × List Nat) :=
  match ExtendedSize.fromU8 byte with
  | .embedded => .ok (getEmbeddedValue byte, l)
  | .u8 => (takeByteSlice 1 l).map (fun (bs, r) => (fromBeBytes bs, r))
  | .u16 => (takeByteSlice 2 l).map (fun (bs, r) => (fromBeBytes bs, r))
  | .u32 => (takeByteSlice 4 l).map (fun (bs, r) => (fromBeBytes bs, r))
  | .u64 => (takeByteSlice 8 l).map (fun (bs, r) => (fromBeBytes bs, r))

/-- `read_cbor_u64`: take the initial byte, then the head value. -/
def readCborU64 (l : List Nat) : Except RErr (Nat × List Nat) := do
  let (byte, r) ← takeByte l
  readCborHeadU64 byte r

/-- `read_cbor_bytes`: initial byte, head length, then that many bytes. -/
def readCborBytes (l : List Nat) : Except RErr (List Nat × List Nat) := do
  let (byte, r) ← takeByte l
  let (len, r1) ← readCborHeadU64 byte r
  takeByteSlice len r1

/-- Is `b` a UTF-8 continuation byte (`0x80..=0xBF`)? -/
def isUtf8Cont (b : Nat) : Bool := 0x80 ≤ b && b ≤ 0xBF

/-- Executable UTF-8 validity over byte sequences, with exactly the
ranges `String::from_utf8` accepts (RFC 3629): this is the model of the
`Ok`/`Err` split of `String::from_utf8` in `read_cbor_text`. -/
def isValidUtf8 : List Nat → Bool
  | [] => true
  | b :: r =>
    if b ≤ 0x7F then isValidUtf8 r
    else if 0xC2 ≤ b && b ≤ 0xDF then
      match r with
      | c1 :: r1 => isUtf8Cont c1 && isValidUtf8 r1
      | [] => false
    else if b = 0xE0 then
      match r with
      | c1 :: c2 :: r2 => (0xA0 ≤ c1 && c1 ≤ 0xBF) && isUtf8Cont c2 && isValidUtf8 r2
      | _ => false
    else if (0xE1 ≤ b && b ≤ 0xEC) || b = 0xEE || b = 0xEF then
      match r with
      | c1 :: c2 :: r2 => isUtf8Cont c1 && isUtf8Cont c2 && isValidUtf8 r2
      | _ => false
    else if b = 0xED then
      match r with
      | c1 :: c2 :: r2 => (0x80 ≤ c1 && c1 ≤ 0x9F) && isUtf8Cont c2 && isValidUtf8 r2
      | _ => false
    else if b = 0xF0 then
      match r with
      | c1 :: c2 :: c3 :: r3 =>
        (0x90 ≤ c1 && c1 ≤ 0xBF) && isUtf8Cont c2 && isUtf8Cont c3 && isValidUtf8 r3
      | _ => false
    else if 0xF1 ≤ b && b ≤ 0xF3 then
      match r with
      | c1 :: c2 :: c3 :: r3 =>
        isUtf8Cont c1 && isUtf8Cont c2 && isUtf8Cont c3 && isValidUtf8 r3
      | _ => false
    else if b = 0xF4 then
      match r with
      | c1 :: c2 :: c3 :: r3 =>
        (0x80 ≤ c1 && c1 ≤ 0x8F) && isUtf8Cont c2 && isUtf8Cont c3 && isValidUtf8 r3
      | _ => false
    else false

/-- `read_cbor_text`: like `read_cbor_bytes`, then `String::from_utf8`,
which fails with a non-EOF error kind on invalid UTF-8. -/
def readCborText (l : List Nat) : Except RErr (List Nat × List Nat) := do
  let (bs, r) ← readCborBytes l
  if isValidUtf8 bs then .ok (bs, r) else .error .other

/-- The lexicographic comparison of byte slices used by Rust's
`<[u8] as Ord>::cmp` on the equal-length slices handed to it by
`cbor_cmp` (on equal lengths it is plain pointwise lexicographic
comparison). -/
def listCmp : List Nat → List Nat → Ordering
  | [], [] => .eq
  | [], _ :: _ => .lt
  | _ :: _, [] => .gt
  | a :: ta, b :: tb =>
    match compare a b with
    | .eq => listCmp ta tb
    | o => o

/-- `cbor_cmp` from `cbor.rs`: compare two serialized CBOR items by
length first, then lexicographically on the bytes.  The source compares
the `0..position` prefixes of two scratch cursors; after a fresh
`set_position(0)` + write, those prefixes are exactly the two full
encodings, which is what the model compares. -/
def cborCmp (a b : List Nat) : Ordering :=
  if a.length = b.length then listCmp a b else compare a.length b.length

/-- The probe comparison of `binary_search_text_first` / `sort_text`:
serialize both keys with `write_cbor_text`, then `cbor_cmp`. -/
def cborTextCmp (a b : List Nat) : Ordering :=
  cborCmp (writeCborText a) (writeCborText b)

/-- The full comparator of `sort_text`: `cbor_cmp` on the encoded keys,
falling back to `a_offset.cmp(b_offset)` on equality. -/
def sortTextCmp (a b : List Nat × Nat) : Ordering :=
  match cborTextCmp a.1 b.1 with
  | .eq => compare a.2 b.2
  | r => r

/-- The non-strict order induced by the `sort_text` comparator: `a` may
come before `b` exactly when the comparator does not say `Greater`. -/
def sortTextLe (a b : List Nat × Nat) : Prop := sortTextCmp a b ≠ .gt

instance : DecidableRel sortTextLe := fun a b => by
  unfold sortTextLe
  infer_instance

/-- `sort_text` from `cbor.rs`.  The source calls the standard library's
stable `sort_by`; a stable sort by a total preorder has a unique result,
so the model uses insertion sort (stable, sorted by the same
comparator). -/
def sortText (l : List (List Nat × Nat)) : List (List Nat × Nat) :=
  List.insertionSort sortTextLe l

/-- Modelled from the spec: plain byte-by-byte lexicographic order on
byte sequences, written independently of the source's `listCmp`, for
stating what order `cbor_sort` produces. -/
def LexLt : List Nat → List Nat → Prop
  | _, [] => False
  | [], _ :: _ => True
  | a :: ta, b :: tb => a < b ∨ (a = b ∧ LexLt ta tb)

/-- Modelled from the spec: the canonical key-then-offset order the spec
describes for `cbor_sort` — a shorter encoded key is less; equal-length
encodings compare lexicographically byte-by-byte; equal keys order by
ascending offset. -/
def specKeyOffsetLe (a b : List Nat × Nat) : Prop :=
  (writeCborText a.1).length < (writeCborText b.1).length ∨
  ((writeCborText a.1).length = (writeCborText b.1).length ∧
    (LexLt (writeCborText a.1) (writeCborText b.1) ∨
      (writeCborText a.1 = writeCborText b.1 ∧ a.2 ≤ b.2)))

/-- The loop of `<[T]>::binary_search_by` from the Rust standard library
(the branchless variant shipped since 1.52, which `cbor.rs` and `get.rs`
call): `g` is the probe comparison at an index.  The first argument is
fuel bounding the iteration count; the loop halves `size` each round, so
any fuel `≥ size` makes the exhaustion branch unreachable. -/
def bsLoop (g : Nat → Ordering) : Nat → Nat → Nat → Nat
  | 0, base, _ => base
  | fuel + 1, base, size =>
    if size ≤ 1 then base
    else
      let half := size / 2
      let mid := base + half
      bsLoop g fuel (if g mid = .gt then base else mid) (size - half)

/-- `<[T]>::binary_search_by` over `n` elements with probe comparison
`g`: `Ok` at a matching position, `Err` at the insertion position. -/
def binarySearchBy (g : Nat → Ordering) (n : Nat) : Except Nat Nat :=
  if n = 0 then .error 0
  else
    match h : g (bsLoop g n 0 n) with
    | .eq => .ok (bsLoop g n 0 n)
    | .lt => .error (bsLoop g n 0 n + 1)
    | .gt => .error (bsLoop g n 0 n)

/-- `step_back_for_duplicates` from `cbor.rs`: walk back while the
previous element's key equals the current one. -/
def stepBackForDuplicates (l : List (List Nat × Nat)) : Nat → Nat
  | 0 => 0
  | i + 1 =>
    match l.get? i, l.get? (i + 1) with
    | some a, some b => if a.1 = b.1 then stepBackForDuplicates l i else i + 1
    | _, _ => i + 1

/-- `binary_search_text_first` from `cbor.rs`: binary search by the
CBOR-encoded comparison, then step back over duplicates on a hit. -/
def binarySearchTextFirst (l : List (List Nat × Nat)) (seek : List Nat) : Except Nat Nat :=
  (binarySearchBy (fun i => cborTextCmp (l.getD i ([], 0)).1 seek) l.length).map
    (stepBackForDuplicates l)

/-- One `append((k, v))` of `SSTableWriterAppend for SSTableWriter<(&str, &str)>`:
capture `offset = data stream position`, write `encode(k) ++ encode(v)`
to the data file and `encode(k) ++ encode_u64(offset)` to the index
file.  The state is the pair (data file bytes, index file bytes); the
stream position of an append-mode writer is the current file length. -/
def appendTextPair (st : List Nat × List Nat) (e : List Nat × List Nat) : List Nat × List Nat :=
  let offset := st.1.length
  (st.1 ++ writeCborText e.1 ++ writeCborText e.2,
   st.2 ++ writeCborText e.1 ++ writeCborUnsignedInteger offset)

/-- A whole writer session on fresh files: append every entry in order. -/
def writeTable (es : List (List Nat × List Nat)) : List Nat × List Nat :=
  es.foldl appendTextPair ([], [])

/-- Reference list of `(key, offset)` pairs for `writeTable`, with
`base` the data-file length before the first listed entry. -/
def specEntries (base : Nat) : List (List Nat × List Nat) → List (List Nat × Nat)
  | [] => []
  | e :: es =>
    (e.1, base) :: specEntries (base + (writeCborText e.1).length + (writeCborText e.2).length) es

/-- Reference shape of the data file `writeTable` produces: the
concatenation of `encode(k) ++ encode(v)` per entry. -/
def specData : List (List Nat × List Nat) → List Nat
  | [] => []
  | e :: es => writeCborText e.1 ++ writeCborText e.2 ++ specData es

/-- Reference shape of the index file `writeTable` produces, with
`base` the data-file length before the first listed entry. -/
def specIndexBytes (base : Nat) : List (List Nat × List Nat) → List Nat
  | [] => []
  | e :: es =>
    writeCborText e.1 ++ writeCborUnsignedInteger base ++
      specIndexBytes (base + (writeCborText e.1).length + (writeCborText e.2).length) es

/-- The index loader `SSTableIndexFromPath<(String, u64)>::from_path`:
read `(text, u64)` pairs until the cursor reaches the end.  The
`.error .other` branch is unreachable (both reads always consume at
least one byte); it only discharges termination. -/
def readIndexTextGo : Nat → List Nat → Except RErr (List (List Nat × Nat))
  | _, [] => .ok []
  | 0, _ :: _ => .error .other
  | fuel + 1, b :: r =>
    match readCborText (b :: r) with
    | .error e => .error e
    | .ok (k, r1) =>
      match readCborU64 r1 with
      | .error e => .error e
      | .ok (o, r2) => (readIndexTextGo fuel r2).map (fun t => (k, o) :: t)

/-- Entry point of the index-loading loop; every iteration consumes at
least one byte, so fuel `l.length` makes the exhaustion branch
unreachable. -/
def readIndexText (l : List Nat) : Except RErr (List (List Nat × Nat)) :=
  readIndexTextGo l.length l

/-- Reading one `(String, String)` record: key then value. -/
def readTextRecord (l : List Nat) : Except RErr ((List Nat × List Nat) × List Nat) := do
  let (k, r1) ← readCborText l
  let (v, r2) ← readCborText r1
  .ok ((k, v), r2)

/-- `Iterator::next` of `SSTableReader<(String, String)>`: read a
record; translate an `UnexpectedEof` failure to `None` and surface any
other failure as `Some(Err(..))`. -/
def nextTextPair (l : List Nat) : Option (Except RErr ((List Nat × List Nat) × List Nat)) :=
  match readTextRecord l with
  | .ok x => some (.ok x)
  | .error .eof => none
  | .error e => some (.error e)

/-- `SSTableReader::seek` to `offset`: subsequent reads resume at that
byte position of the data file. -/
def seekTo (data : List Nat) (offset : Nat) : List Nat := data.drop offset

/-- `get_index_entry_by_key` from `get.rs`: plain natural-order
`binary_search_by` (no duplicate step-back) on the loaded index, keys
compared with `String`'s byte-lexicographic `Ord`. -/
def getIndexEntryByKey (idx : List (List Nat × Nat)) (key : List Nat) : Option (List Nat × Nat) :=
  match binarySearchBy (fun i => listCmp (idx.getD i ([], 0)).1 key) idx.length with
  | .ok x => idx.get? x
  | .error _ => none

def writeNextNGo (indexKey : List Nat) (n : Option Nat) :
    Nat → List Nat → Nat → Except RErr (List (List Nat × List Nat))
  | 0, _, _ => .error .other
  | fuel + 1, l, count =>
    match nextTextPair l with
    | none => .ok []
    | some (.error e) => .error e
    | some (.ok ((k, v), r)) =>
      if k ≠ indexKey then .ok []
      else
        match n with
        | some nn =>
          if count + 1 ≥ nn then .ok [(k, v)]
          else (writeNextNGo indexKey n fuel r (count + 1)).map (fun t => (k, v) :: t)
        | none => (writeNextNGo indexKey n fuel r (count + 1)).map (fun t => (k, v) :: t)

/-- `write_next_n_with_key` from `get.rs`: stream records while the key
equals `indexKey`, emitting `key: value` lines, stopping at the cap.
Every successful record read consumes at least one byte, so fuel
`l.length + 1` makes the exhaustion branch unreachable. -/
def writeNextNWithKey (l : List Nat) (indexKey : List Nat) (n : Option Nat) (count : Nat) :
    Except RErr (List (List Nat × List Nat)) :=
  writeNextNGo indexKey n (l.length + 1) l count

/-- Output events of the `get` engine. -/
inductive Emission where
  | missingMsg
  | pair (k v : List Nat)
  | value (v : List Nat)
deriving DecidableEq, Repr

def getKvLinearGo (key : List Nat) (n : Option Nat) :
    Nat → List Nat → Nat → Except RErr (List Emission)
  | 0, _, _ => .error .other
  | fuel + 1, l, count =>
    match nextTextPair l with
    | none => .ok []
    | some (.error e) => .error e
    | some (.ok ((k, v), r)) =>
      let hit := k = key
      let count2 := if hit then count + 1 else count
      let ems := if hit then [Emission.value v] else []
      match n with
      | some nn =>
        if count2 ≥ nn then .ok ems
        else (getKvLinearGo key n fuel r count2).map (fun t => ems ++ t)
      | none => (getKvLinearGo key n fuel r count2).map (fun t => ems ++ t)

/-- `get_kv_by_linear_search` from `get.rs`: scan every record, emit the
value on a key match, check the cap after every record.  Every
successful record read consumes at least one byte, so fuel
`l.length + 1` makes the exhaustion branch unreachable. -/
def getKvByLinearSearch (l : List Nat) (key : List Nat) (n : Option Nat) (count : Nat) :
    Except RErr (List Emission) :=
  getKvLinearGo key n (l.length + 1) l count

/-- One input of the `get` engine: whether the data path exists, the
data file bytes, and the sidecar index file bytes if the index loads
(`none` models a failing `SSTableIndex::from_path`). -/
structure InputFile where
  isFile : Bool
  data : List Nat
  indexFile : Option (List Nat)

/-- `get` from `get.rs` over a list of input paths.  Mirrors the source
control flow, including the `return Ok(())` that aborts the whole loop
when the fast path's index search misses. -/
def getModel (inputs : List InputFile) (key : List Nat) (n : Option Nat) :
    Except RErr (List Emission) :=
  match inputs with
  | [] => .ok []
  | f :: rest =>
    if f.isFile = false then
      (getModel rest key n).map (fun t => Emission.missingMsg :: t)
    else
      match f.indexFile with
      | some idxBytes =>
        match readIndexText idxBytes with
        | .ok idx =>
          match getIndexEntryByKey idx key with
          | none => .ok []
          | some (indexKey, offset) =>
            match writeNextNWithKey (seekTo f.data offset) indexKey n 0 with
            | .error e => .error e
            | .ok ems =>
              (getModel rest key n).map
                (fun t => (ems.map (fun p => Emission.pair p.1 p.2)) ++ t)
        | .error _ =>
          match getKvByLinearSearch f.data key n 0 with
          | .error e => .error e
          | .ok ems => (getModel rest key n).map (fun t => ems ++ t)
      | none =>
        match getKvByLinearSearch f.data key n 0 with
        | .error e => .error e
        | .ok ems => (getModel rest key n).map (fun t => ems ++ t)

/-- A merge input: the in-memory `SSTableIndex` and the owned reader,
abstracted to the result of `seek(offset)` followed by `next()` —
`some (k, v)` for a successfully read record, `none` when the read
fails (either `None`, turned into an `UnexpectedEof` error by `merge`,
or `Some(Err(..))`). -/
structure MergeInput (K V : Type) where
  readAt : Nat → Option (K × V)
  index : List (K × Nat)

/-- `HeapTuple` from `merge.rs`: current key, owned reader + index,
index cursor, and the offset at the cursor. -/
structure HeapEntry (K V : Type) where
  key : K
  input : MergeInput K V
  cursor : Nat
  offset : Nat

/-- `Ord for HeapTuple`: `other.0.cmp(&self.0)` — compare only the
keys, reversed so the smallest key is the heap maximum. -/
def heapTupleCmp {K V : Type} [LinearOrder K] (a b : HeapEntry K V) : Ordering :=
  compare b.key a.key

/-- `BinaryHeap::pop` as documented: remove a greatest element with
respect to the comparator (among equal greatest elements the standard
library does not specify which; the model takes the leftmost). -/
def popMax {α : Type} (c : α → α → Ordering) : List α → Option (α × List α)
  | [] => none
  | a :: rest =>
    match popMax c rest with
    | none => some (a, [])
    | some (m, r') => if c a m = .lt then some (m, a :: r') else some (a, rest)

/-- `initialize_heap` from `merge.rs`: push an entry at cursor 0 for
every input whose index is non-empty, in input order. -/
def initHeapStep {K V : Type} (h : List (HeapEntry K V)) (inp : MergeInput K V) :
    List (HeapEntry K V) :=
  match inp.index.get? 0 with
  | some (k, o) => h ++ [⟨k, inp, 0, o⟩]
  | none => h

def initHeap {K V : Type} (inputs : List (MergeInput K V)) : List (HeapEntry K V) :=
  inputs.foldl initHeapStep []

/-- Termination measure of the merge loop: one per heap entry plus the
entries remaining in its index tail. -/
def entryWeight {K V : Type} (e : HeapEntry K V) : Nat :=
  e.input.index.length - e.cursor + 1

/-- Total weight of a heap. -/
def heapWeight {K V : Type} (h : List (HeapEntry K V)) : Nat :=
  (h.map entryWeight).sum

/-- The loop of `Mergeable::merge`: pop the smallest key, seek + read
one record, emit it, re-queue the input at the next cursor if any.
`none` models the `io::Result` error exit.  The final guard is
unreachable (the weight always drops) and only discharges
termination. -/
def mergeLoop {K V : Type} [LinearOrder K] (heap : List (HeapEntry K V)) :
    Option (List (K × V)) :=
  match popMax heapTupleCmp heap with
  | none => some []
  | some (e, rest) =>
    match e.input.readAt e.offset with
    | none => none
    | some kv =>
      let rest' :=
        match e.input.index.get? (e.cursor + 1) with
        | some (k', o') => rest ++ [⟨k', e.input, e.cursor + 1, o'⟩]
        | none => rest
      if h : heapWeight rest' < heapWeight heap then
        (mergeLoop rest').map (fun t => kv :: t)
      else none
termination_by heapWeight heap
decreasing_by exact h

/-- `Mergeable::merge` for a list of `(reader, index)` pairs, emissions
collected in order. -/
def merge {K V : Type} [LinearOrder K] (inputs : List (MergeInput K V)) :
    Option (List (K × V)) :=
  mergeLoop (initHeap inputs)

/-- The records of one input, read through its index offsets in index
order. -/
def recordsOf {K V : Type} (inp : MergeInput K V) : List (K × V) :=
  inp.index.filterMap (fun p => inp.readAt p.2)

/-- A well-formed SSTable input: reading at an index entry's offset
yields a record whose key is that entry's key. -/
def InputWF {K V : Type} (inp : MergeInput K V) : Prop :=
  ∀ p ∈ inp.index, ∃ v, inp.readAt p.2 = some (p.1, v)

/-- An input whose index is sorted in natural (non-decreasing) key
order. -/
def InputSorted {K V : Type} [LinearOrder K] (inp : MergeInput K V) : Prop :=
  inp.index.Pairwise (fun a b => a.1 ≤ b.1)

/-- Invariant of a heap entry during the merge: the input is
well-formed and sorted, and the entry caches the index pair at its
cursor. -/
def EntryWF {K V : Type} [LinearOrder K] (e : HeapEntry K V) : Prop :=
  InputWF e.input ∧ InputSorted e.input ∧
    e.input.index.get? e.cursor = some (e.key, e.offset)

/-- The records an entry still has to emit: its index tail from the
cursor on, read through the offsets. -/
def tailRecords {K V : Type} (e : HeapEntry K V) : List (K × V) :=
  (e.input.index.drop e.cursor).filterMap (fun p => e.input.readAt p.2)

/-- All records the heap still has to emit. -/
def heapRecords {K V : Type} (h : List (HeapEntry K V)) : List (K × V) :=
  (h.map tailRecords).flatten

/-- A two-record sample input over natural keys and values. -/
def mergeSampleA : MergeInput Nat Nat :=
  ⟨fun o => if o = 10 then some (1, 100) else if o = 30 then some (3, 300) else none,
   [(1, 10), (3, 30)]⟩

/-- A one-record sample input over natural keys and values. -/
def mergeSampleB : MergeInput Nat Nat :=
  ⟨fun o => if o = 20 then some (2, 200) else none, [(2, 20)]⟩

/-! ## General lemmas about the codec -/

theorem lor_mask31 (q v : Nat) (hv : v < 32) : (32 * q ||| v) &&& 31 = v := by
  apply Nat.eq_of_testBit_eq
  intro i
  rw [Nat.testBit_land, Nat.testBit_lor]
  have h31 : (31 : Nat) = 2 ^ 5 - 1 := by norm_num
  have h32 : 32 * q = q <<< 5 := by rw [Nat.shiftLeft_eq]; ring
  rw [h31, Nat.testBit_two_pow_sub_one, h32, Nat.testBit_shiftLeft]
  by_cases hi : i < 5
  · have : ¬ (i ≥ 5) := by omega
    simp [hi, this]
  · have hge : i ≥ 5 := by omega
    have hvb : v.testBit i = false := Nat.testBit_lt_two_pow (by
      calc v < 32 := hv
        _ ≤ 2 ^ i := by
          have : (2:Nat) ^ 5 ≤ 2 ^ i := Nat.pow_le_pow_right (by omega) hge
          omega)
    simp [hi, hvb]

theorem asU8_lor_mask (m : MajorType) (v : Nat) (hv : v < 32) : (m.asU8 ||| v) &&& 31 = v := by
  cases m
  case unsignedInteger => simpa [MajorType.asU8] using lor_mask31 0 v hv
  case negativeInteger => simpa [MajorType.asU8] using lor_mask31 1 v hv
  case bytes => simpa [MajorType.asU8] using lor_mask31 2 v hv
  case text => simpa [MajorType.asU8] using lor_mask31 3 v hv
  case array => simpa [MajorType.asU8] using lor_mask31 4 v hv
  case object => simpa [MajorType.asU8] using lor_mask31 5 v hv
  case semanticTag => simpa [MajorType.asU8] using lor_mask31 6 v hv
  case noContentType => simpa [MajorType.asU8] using lor_mask31 7 v hv

theorem getEmbeddedValueForU64_lt (v : Nat) : getEmbeddedValueForU64 v < 32 := by
  unfold getEmbeddedValueForU64
  split <;> try omega
  split <;> try omega
  split <;> try omega
  split <;> omega

theorem readCborU64_writeCborHead (m : MajorType) (v : Nat) (hv : v < 2 ^ 64)
    (rest : List Nat) : readCborU64 (writeCborHead m v ++ rest) = .ok (v, rest) := by
  have hemb := getEmbeddedValueForU64_lt v
  have hmask := asU8_lor_mask m (getEmbeddedValueForU64 v) hemb
  by_cases h0 : v ≤ 23
  · have he : getEmbeddedValueForU64 v = v := by simp [getEmbeddedValueForU64, h0]
    rw [he] at hmask
    have hn : getNumBytesForU64 v = 0 := by simp [getNumBytesForU64, h0]
    have hr : ¬ (24 ≤ v ∧ v ≤ 27) := by omega
    simp [writeCborHead, hn, he, readCborU64, takeByte, readCborHeadU64, ExtendedSize.fromU8,
      hmask, hr, getEmbeddedValue, bind, Except.bind]
  · by_cases h1 : v ≤ 255
    · have he : getEmbeddedValueForU64 v = 24 := by simp [getEmbeddedValueForU64, h0, h1]
      rw [he] at hmask
      have hn : getNumBytesForU64 v = 1 := by simp [getNumBytesForU64, h0, h1]
      simp [writeCborHead, hn, he, readCborU64, takeByte, readCborHeadU64, ExtendedSize.fromU8,
        hmask, toBeBytes, takeByteSlice, fromBeBytes, bind, Except.bind, Except.map]
      omega
    · by_cases h2 : v ≤ 65535
      · have he : getEmbeddedValueForU64 v = 25 := by
          simp [getEmbeddedValueForU64, h0, h1, h2]
        rw [he] at hmask
        have hn : getNumBytesForU64 v = 2 := by simp [getNumBytesForU64, h0, h1, h2]
        simp [writeCborHead, hn, he, readCborU64, takeByte, readCborHeadU64, ExtendedSize.fromU8,
          hmask, toBeBytes, takeByteSlice, fromBeBytes, bind, Except.bind, Except.map]
        rw [if_neg (by omega)]
        simp
        omega
      · by_cases h3 : v ≤ 4294967295
        · have he : getEmbeddedValueForU64 v = 26 := by
            simp [getEmbeddedValueForU64, h0, h1, h2, h3]
          rw [he] at hmask
          have hn : getNumBytesForU64 v = 4 := by simp [getNumBytesForU64, h0, h1, h2, h3]
          simp [writeCborHead, hn, he, readCborU64, takeByte, readCborHeadU64, ExtendedSize.fromU8,
            hmask, toBeBytes, takeByteSlice, fromBeBytes, bind, Except.bind, Except.map]
          rw [if_neg (by omega)]
          simp
          omega
        · have he : getEmbeddedValueForU64 v = 27 := by
            simp [getEmbeddedValueForU64, h0, h1, h2, h3]
          rw [he] at hmask
          have hn : getNumBytesForU64 v = 8 := by simp [getNumBytesForU64, h0, h1, h2, h3]
          simp [writeCborHead, hn, he, readCborU64, takeByte, readCborHeadU64, ExtendedSize.fromU8,
            hmask, toBeBytes, takeByteSlice, fromBeBytes, bind, Except.bind, Except.map]
          rw [if_neg (by omega)]
          simp
          omega



theorem takeByteSlice_exact (xs rest : List Nat) :
    takeByteSlice xs.length (xs ++ rest) = .ok (xs, rest) := by
  unfold takeByteSlice
  rw [if_neg (by simp [List.length_append]), List.take_left, List.drop_left]

theorem readCborBytes_decomp (l : List Nat) :
    readCborBytes l = (readCborU64 l).bind (fun p => takeByteSlice p.1 p.2) := by
  cases l with
  | nil => rfl
  | cons b r =>
    simp [readCborBytes, readCborU64, takeByte, bind, Except.bind]

theorem readCborBytes_writeCborHead (m : MajorType) (xs rest : List Nat)
    (h : xs.length < 2 ^ 64) :
    readCborBytes (writeCborHead m xs.length ++ (xs ++ rest)) = .ok (xs, rest) := by
  rw [readCborBytes_decomp, readCborU64_writeCborHead m xs.length h]
  simpa [Except.bind] using takeByteSlice_exact xs rest

theorem readCborBytes_writeCborBytes (bs rest : List Nat) (h : bs.length < 2 ^ 64) :
    readCborBytes (writeCborBytes bs ++ rest) = .ok (bs, rest) := by
  rw [writeCborBytes, List.append_assoc]
  exact readCborBytes_writeCborHead _ _ _ h

theorem readCborBytes_writeCborText (s rest : List Nat) (h : s.length < 2 ^ 64) :
    readCborBytes (writeCborText s ++ rest) = .ok (s, rest) := by
  rw [writeCborText, List.append_assoc]
  exact readCborBytes_writeCborHead _ _ _ h

theorem readCborText_writeCborText (s rest : List Nat) (h : s.length < 2 ^ 64)
    (hv : isValidUtf8 s = true) :
    readCborText (writeCborText s ++ rest) = .ok (s, rest) := by
  simp [readCborText, readCborBytes_writeCborText s rest h, bind, Except.bind, hv]

theorem readCborU64_writeCborUnsignedInteger (v : Nat) (hv : v < 2 ^ 64) (rest : List Nat) :
    readCborU64 (writeCborUnsignedInteger v ++ rest) = .ok (v, rest) :=
  readCborU64_writeCborHead _ v hv rest

theorem readTextRecord_enc (k v rest : List Nat) (hk : k.length < 2 ^ 64)
    (hkv : isValidUtf8 k = true) (hv : v.length < 2 ^ 64) (hvv : isValidUtf8 v = true) :
    readTextRecord (writeCborText k ++ writeCborText v ++ rest) = .ok ((k, v), rest) := by
  rw [readTextRecord, List.append_assoc,
    readCborText_writeCborText k (writeCborText v ++ rest) hk hkv]
  simp [bind, Except.bind, readCborText_writeCborText v rest hv hvv]


/-! ## Claim C2 and C4: codec round-trips and minimal head encoding -/

/-- C2: for each of the three supported kinds (unsigned 64-bit integer,
byte string, UTF-8 text string) and every value `x` of that kind,
decoding the bytes produced by encoding `x` yields `x` again:
`read_cbor_u64`, `read_cbor_bytes` and `read_cbor_text` are left
inverses of `write_cbor_unsigned_integer`, `write_cbor_bytes` and
`write_cbor_text`. -/
theorem c2_codec_roundtrip :
    (∀ v : Nat, v < 2 ^ 64 →
      readCborU64 (writeCborUnsignedInteger v) = .ok (v, [])) ∧
    (∀ bs : List Nat, (∀ b ∈ bs, b < 256) → bs.length < 2 ^ 64 →
      readCborBytes (writeCborBytes bs) = .ok (bs, [])) ∧
    (∀ s : List Nat, isValidUtf8 s = true → s.length < 2 ^ 64 →
      readCborText (writeCborText s) = .ok (s, [])) := by
  refine ⟨fun v hv => ?_, fun bs _ h => ?_, fun s hv h => ?_⟩
  · simpa using readCborU64_writeCborUnsignedInteger v hv []
  · simpa using readCborBytes_writeCborBytes bs [] h
  · simpa using readCborText_writeCborText s [] h hv

/-- Witness for C2 at the concrete values `1000`, `[1, 2, 3]` and the
text `"hi"` (UTF-8 bytes `[104, 105]`). -/
theorem c2_codec_roundtrip_witness :
    readCborU64 (writeCborUnsignedInteger 1000) = .ok (1000, []) ∧
    readCborBytes (writeCborBytes [1, 2, 3]) = .ok ([1, 2, 3], []) ∧
    readCborText (writeCborText [104, 105]) = .ok ([104, 105], []) :=
  ⟨c2_codec_roundtrip.1 1000 (by decide),
   c2_codec_roundtrip.2.1 [1, 2, 3] (by decide) (by decide),
   c2_codec_roundtrip.2.2 [104, 105] (by decide) (by decide)⟩

/-- C4: the CBOR head encoder always chooses the smallest size class
that fits: 0–23 embedded in the initial byte with no payload, 24–255 in
the u8 form (tag 24, one payload byte), 256–65535 in the u16 form
(tag 25, two bytes), 65536–2^32−1 in the u32 form (tag 26, four bytes),
larger in the u64 form (tag 27, eight bytes), payload big-endian. -/
theorem c4_minimal_head_encoding (m : MajorType) (v : Nat) (hv : v < 2 ^ 64) :
    (v ≤ 23 → writeCborHead m v = [m.asU8 ||| v]) ∧
    (24 ≤ v → v ≤ 255 → writeCborHead m v = [m.asU8 ||| 24, v]) ∧
    (256 ≤ v → v ≤ 65535 → writeCborHead m v = [m.asU8 ||| 25, v / 2 ^ 8, v % 2 ^ 8]) ∧
    (65536 ≤ v → v ≤ 4294967295 → writeCborHead m v =
      [m.asU8 ||| 26, v / 2 ^ 24, v / 2 ^ 16 % 2 ^ 8, v / 2 ^ 8 % 2 ^ 8, v % 2 ^ 8]) ∧
    (4294967296 ≤ v → writeCborHead m v =
      [m.asU8 ||| 27, v / 2 ^ 56, v / 2 ^ 48 % 2 ^ 8, v / 2 ^ 40 % 2 ^ 8, v / 2 ^ 32 % 2 ^ 8,
       v / 2 ^ 24 % 2 ^ 8, v / 2 ^ 16 % 2 ^ 8, v / 2 ^ 8 % 2 ^ 8, v % 2 ^ 8]) := by
  refine ⟨fun h0 => ?_, fun h0 h1 => ?_, fun h0 h1 => ?_, fun h0 h1 => ?_, fun h0 => ?_⟩
  · simp [writeCborHead, getEmbeddedValueForU64, getNumBytesForU64, h0]
  · have ha : ¬ v ≤ 23 := by omega
    simp [writeCborHead, getEmbeddedValueForU64, getNumBytesForU64, ha, h1, toBeBytes]
    omega
  · have ha : ¬ v ≤ 23 := by omega
    have hb : ¬ v ≤ 255 := by omega
    simp [writeCborHead, getEmbeddedValueForU64, getNumBytesForU64, ha, hb, h1, toBeBytes]
    omega
  · have ha : ¬ v ≤ 23 := by omega
    have hb : ¬ v ≤ 255 := by omega
    have hc : ¬ v ≤ 65535 := by omega
    simp [writeCborHead, getEmbeddedValueForU64, getNumBytesForU64, ha, hb, hc, h1, toBeBytes]
    omega
  · have ha : ¬ v ≤ 23 := by omega
    have hb : ¬ v ≤ 255 := by omega
    have hc : ¬ v ≤ 65535 := by omega
    have hd : ¬ v ≤ 4294967295 := by omega
    simp [writeCborHead, getEmbeddedValueForU64, getNumBytesForU64, ha, hb, hc, hd, toBeBytes]
    omega

/-- Witness for C4 at the boundary values 23 (embedded), 255 (u8),
65535 (u16), 65536 (u32) and 2^32 (u64), for the unsigned-integer and
text major types. -/
theorem c4_minimal_head_encoding_witness :
    writeCborHead .unsignedInteger 23 = [23] ∧
    writeCborHead .unsignedInteger 255 = [24, 255] ∧
    writeCborHead .text 65535 = [0x79, 255, 255] ∧
    writeCborHead .unsignedInteger 65536 = [26, 0, 1, 0, 0] ∧
    writeCborHead .unsignedInteger 4294967296 = [27, 0, 0, 0, 1, 0, 0, 0, 0] := by
  refine ⟨?_, ?_, ?_, ?_, ?_⟩
  · have := (c4_minimal_head_encoding .unsignedInteger 23 (by decide)).1 (by decide)
    simpa using this
  · have := (c4_minimal_head_encoding .unsignedInteger 255 (by decide)).2.1
      (by decide) (by decide)
    simpa using this
  · have := (c4_minimal_head_encoding .text 65535 (by decide)).2.2.1 (by decide) (by decide)
    simpa using this
  · have := (c4_minimal_head_encoding .unsignedInteger 65536 (by decide)).2.2.2.1
      (by decide) (by decide)
    simpa using this
  · have := (c4_minimal_head_encoding .unsignedInteger 4294967296 (by decide)).2.2.2.2
      (by decide)
    simpa using this


/-! ## Heap lemmas (merge engine) -/

theorem popMax_cons_isSome {α : Type} (c : α → α → Ordering) (a : α) (r : List α) :
    (popMax c (a :: r)).isSome := by
  rcases h : popMax c r with _ | ⟨m, r2⟩
  · simp [popMax, h]
  · simp only [popMax, h]
    split <;> simp

theorem popMax_nil_of_none {α : Type} (c : α → α → Ordering) {l : List α}
    (h : popMax c l = none) : l = [] := by
  cases l with
  | nil => rfl
  | cons a r =>
    have := popMax_cons_isSome c a r
    rw [h] at this
    simp at this

theorem popMax_perm {α : Type} (c : α → α → Ordering) :
    ∀ {l : List α} {m : α} {r : List α}, popMax c l = some (m, r) → l.Perm (m :: r) := by
  intro l
  induction l with
  | nil => intro m r h; simp [popMax] at h
  | cons a rest ih =>
    intro m r h
    rw [popMax] at h
    rcases hrec : popMax c rest with _ | ⟨m2, r2⟩
    · rw [hrec] at h
      dsimp only at h
      have hnil := popMax_nil_of_none c hrec
      subst hnil
      simp at h
      obtain ⟨rfl, rfl⟩ := h
      exact List.Perm.refl _
    · rw [hrec] at h
      dsimp only at h
      by_cases hc : c a m2 = .lt
      · rw [if_pos hc] at h
        simp at h
        obtain ⟨rfl, rfl⟩ := h
        exact ((ih hrec).cons a).trans (List.Perm.swap m2 a r2)
      · rw [if_neg hc] at h
        simp at h
        obtain ⟨rfl, rfl⟩ := h
        exact List.Perm.refl _

theorem popMax_min_key {K V : Type} [LinearOrder K] :
    ∀ {l : List (HeapEntry K V)} {m : HeapEntry K V} {r : List (HeapEntry K V)},
      popMax heapTupleCmp l = some (m, r) → ∀ x ∈ r, m.key ≤ x.key := by
  intro l
  induction l with
  | nil => intro m r h; simp [popMax] at h
  | cons a rest ih =>
    intro m r h
    rw [popMax] at h
    rcases hrec : popMax heapTupleCmp rest with _ | ⟨m2, r2⟩
    · rw [hrec] at h
      dsimp only at h
      simp at h
      obtain ⟨rfl, rfl⟩ := h
      simp
    · rw [hrec] at h
      dsimp only at h
      by_cases hc : heapTupleCmp a m2 = .lt
      · rw [if_pos hc] at h
        simp at h
        obtain ⟨rfl, rfl⟩ := h
        intro x hx
        rcases List.mem_cons.mp hx with rfl | hx2
        · have hc2 := hc
          rw [heapTupleCmp] at hc2
          exact le_of_lt (compare_lt_iff_lt.mp hc2)
        · exact ih hrec x hx2
      · rw [if_neg hc] at h
        simp at h
        obtain ⟨rfl, rfl⟩ := h
        intro x hx
        have hle : a.key ≤ m2.key := by
          rw [heapTupleCmp] at hc
          rcases lt_trichotomy m2.key a.key with hlt | heq | hgt
          · exact absurd (compare_lt_iff_lt.mpr hlt) hc
          · exact le_of_eq heq.symm
          · exact le_of_lt hgt
        have hx2 : x ∈ m2 :: r2 := (popMax_perm heapTupleCmp hrec).mem_iff.mp hx
        rcases List.mem_cons.mp hx2 with rfl | hx3
        · exact hle
        · exact le_trans hle (ih hrec x hx3)

/-! ## Claim C10: the heap comparator -/

/-- C10 counterexample: the claim says equal-key ties are broken
deterministically by input position and then index-cursor position, but
the comparator returns `Equal` in both directions for two entries with
equal keys, different inputs, different cursors and different offsets —
it contains no tiebreaker at all. -/
theorem c10_counterexample :
    heapTupleCmp (HeapEntry.mk (5 : Nat) ⟨fun _ => none, [(5, 0)]⟩ 0 0)
        (HeapEntry.mk (5 : Nat) (⟨fun _ => none, [(5, 1), (5, 9)]⟩ : MergeInput Nat Nat) 1 9)
      = .eq ∧
    heapTupleCmp (HeapEntry.mk (5 : Nat) (⟨fun _ => none, [(5, 1), (5, 9)]⟩ : MergeInput Nat Nat) 1 9)
        (HeapEntry.mk (5 : Nat) ⟨fun _ => none, [(5, 0)]⟩ 0 0)
      = .eq := by
  constructor <;> rfl

/-- C10 (amended): the priority-queue comparator orders entries by key
with the comparison reversed, so that popping a greatest element of the
heap yields an entry of minimal key; but it compares nothing besides the
keys — two entries with equal keys compare `Equal` no matter which input
or cursor position they hold, so the pop order among equal keys is
whatever the standard binary heap happens to produce, not the input-list
order. -/
theorem c10_heap_comparator_reversed_keys_only {K V : Type} [LinearOrder K] :
    (∀ a b : HeapEntry K V, heapTupleCmp a b = compare b.key a.key) ∧
    (∀ a b : HeapEntry K V, a.key = b.key → heapTupleCmp a b = .eq) ∧
    (∀ (l : List (HeapEntry K V)) m r,
      popMax heapTupleCmp l = some (m, r) → ∀ x ∈ r, m.key ≤ x.key) := by
  refine ⟨fun a b => rfl, fun a b h => ?_, fun l m r h => popMax_min_key h⟩
  rw [heapTupleCmp, h, compare_eq_iff_eq]

/-- Witness for C10 (amended) on a two-entry heap with keys 3 and 5:
the comparator judges the equal-key pair `Equal`, and popping returns
the key-3 entry with the key-5 entry left behind. -/
theorem c10_heap_comparator_witness :
    heapTupleCmp (HeapEntry.mk (7 : Nat) (⟨fun _ => none, []⟩ : MergeInput Nat Nat) 0 0)
        (HeapEntry.mk (7 : Nat) (⟨fun _ => none, []⟩ : MergeInput Nat Nat) 1 1) = .eq ∧
    (HeapEntry.mk (3 : Nat) (⟨fun _ => none, []⟩ : MergeInput Nat Nat) 0 0).key ≤
      (HeapEntry.mk (5 : Nat) (⟨fun _ => none, []⟩ : MergeInput Nat Nat) 0 0).key := by
  constructor
  · exact c10_heap_comparator_reversed_keys_only.2.1 _ _ rfl
  · exact c10_heap_comparator_reversed_keys_only.2.2
      [HeapEntry.mk (3 : Nat) (⟨fun _ => none, []⟩ : MergeInput Nat Nat) 0 0,
       HeapEntry.mk (5 : Nat) (⟨fun _ => none, []⟩ : MergeInput Nat Nat) 0 0] _ _ rfl _
      (List.mem_singleton.mpr rfl)


/-! ## Truncation lemmas: every strict prefix of an encoded item reads as EOF -/

theorem takeByteSlice_short (n : Nat) (l : List Nat) (h : l.length < n) :
    takeByteSlice n l = .error .eof := by
  unfold takeByteSlice
  rw [if_pos h]

theorem writeCborHead_length (m : MajorType) (v : Nat) :
    (writeCborHead m v).length = 1 + getNumBytesForU64 v := by
  by_cases h0 : v ≤ 23
  · simp [writeCborHead, getNumBytesForU64, h0]
  · by_cases h1 : v ≤ 255
    · simp [writeCborHead, getNumBytesForU64, h0, h1, toBeBytes]
    · by_cases h2 : v ≤ 65535
      · simp [writeCborHead, getNumBytesForU64, h0, h1, h2, toBeBytes]
      · by_cases h3 : v ≤ 4294967295
        · simp [writeCborHead, getNumBytesForU64, h0, h1, h2, h3, toBeBytes]
        · simp [writeCborHead, getNumBytesForU64, h0, h1, h2, h3, toBeBytes]

theorem readCborU64_truncHead (m : MajorType) (v : Nat) (k : Nat)
    (hk : k < (writeCborHead m v).length) :
    readCborU64 ((writeCborHead m v).take k) = .error .eof := by
  rw [writeCborHead_length] at hk
  have hemb := getEmbeddedValueForU64_lt v
  have hmask := asU8_lor_mask m (getEmbeddedValueForU64 v) hemb
  rcases k with _ | j
  · simp [readCborU64, takeByte, bind, Except.bind]
  · by_cases h0 : v ≤ 23
    · have hn : getNumBytesForU64 v = 0 := by simp [getNumBytesForU64, h0]
      omega
    · by_cases h1 : v ≤ 255
      · have he : getEmbeddedValueForU64 v = 24 := by simp [getEmbeddedValueForU64, h0, h1]
        rw [he] at hmask
        have hn : getNumBytesForU64 v = 1 := by simp [getNumBytesForU64, h0, h1]
        rw [hn] at hk
        simp [writeCborHead, hn, he, readCborU64, takeByte, readCborHeadU64,
          ExtendedSize.fromU8, hmask, toBeBytes, bind, Except.bind]
        rw [takeByteSlice_short _ _ (by simp [List.length_take]; omega)]
        simp [Except.map]
      · by_cases h2 : v ≤ 65535
        · have he : getEmbeddedValueForU64 v = 25 := by
            simp [getEmbeddedValueForU64, h0, h1, h2]
          rw [he] at hmask
          have hn : getNumBytesForU64 v = 2 := by simp [getNumBytesForU64, h0, h1, h2]
          rw [hn] at hk
          simp [writeCborHead, hn, he, readCborU64, takeByte, readCborHeadU64,
            ExtendedSize.fromU8, hmask, toBeBytes, bind, Except.bind]
          rw [takeByteSlice_short _ _ (by simp [List.length_take]; omega)]
          simp [Except.map]
        · by_cases h3 : v ≤ 4294967295
          · have he : getEmbeddedValueForU64 v = 26 := by
              simp [getEmbeddedValueForU64, h0, h1, h2, h3]
            rw [he] at hmask
            have hn : getNumBytesForU64 v = 4 := by simp [getNumBytesForU64, h0, h1, h2, h3]
            rw [hn] at hk
            simp [writeCborHead, hn, he, readCborU64, takeByte, readCborHeadU64,
              ExtendedSize.fromU8, hmask, toBeBytes, bind, Except.bind]
            rw [takeByteSlice_short _ _ (by simp [List.length_take]; omega)]
            simp [Except.map]
          · have he : getEmbeddedValueForU64 v = 27 := by
              simp [getEmbeddedValueForU64, h0, h1, h2, h3]
            rw [he] at hmask
            have hn : getNumBytesForU64 v = 8 := by simp [getNumBytesForU64, h0, h1, h2, h3]
            rw [hn] at hk
            simp [writeCborHead, hn, he, readCborU64, takeByte, readCborHeadU64,
              ExtendedSize.fromU8, hmask, toBeBytes, bind, Except.bind]
            rw [takeByteSlice_short _ _ (by simp [List.length_take]; omega)]
            simp [Except.map]

theorem readCborBytes_truncEnc (m : MajorType) (xs : List Nat) (h : xs.length < 2 ^ 64)
    (k : Nat) (hk : k < (writeCborHead m xs.length ++ xs).length) :
    readCborBytes ((writeCborHead m xs.length ++ xs).take k) = .error .eof := by
  by_cases hc : k < (writeCborHead m xs.length).length
  · rw [List.take_append_of_le_length (le_of_lt hc)]
    rw [readCborBytes_decomp, readCborU64_truncHead m xs.length k hc]
    rfl
  · push_neg at hc
    rw [List.take_append_eq_append_take, List.take_of_length_le hc]
    rw [readCborBytes_decomp,
      readCborU64_writeCborHead m xs.length h (xs.take (k - (writeCborHead m xs.length).length))]
    have hlen : (xs.take (k - (writeCborHead m xs.length).length)).length < xs.length := by
      rw [List.length_append] at hk
      simp [List.length_take]
      omega
    simpa [Except.bind] using takeByteSlice_short xs.length _ hlen

theorem readCborText_truncEnc (s : List Nat) (h : s.length < 2 ^ 64) (k : Nat)
    (hk : k < (writeCborText s).length) :
    readCborText ((writeCborText s).take k) = .error .eof := by
  rw [writeCborText] at hk ⊢
  rw [readCborText, readCborBytes_truncEnc .text s h k hk]
  rfl

theorem readTextRecord_trunc (kk vv : List Nat) (hkl : kk.length < 2 ^ 64)
    (hku : isValidUtf8 kk = true) (hvl : vv.length < 2 ^ 64) (m : Nat)
    (hm : m < (writeCborText kk ++ writeCborText vv).length) :
    readTextRecord ((writeCborText kk ++ writeCborText vv).take m) = .error .eof := by
  by_cases hc : m < (writeCborText kk).length
  · rw [List.take_append_of_le_length (le_of_lt hc)]
    rw [readTextRecord, readCborText_truncEnc kk hkl m hc]
    rfl
  · push_neg at hc
    rw [List.take_append_eq_append_take, List.take_of_length_le hc]
    rw [readTextRecord,
      readCborText_writeCborText kk _ hkl hku]
    have hlt : m - (writeCborText kk).length < (writeCborText vv).length := by
      rw [List.length_append] at hm
      omega
    simp [bind, Except.bind, readCborText_truncEnc vv hvl _ hlt]

/-! ## Claim C7: where EOF ends iteration -/

/-- C7 counterexample: the byte stream `[0x61, 0x61]` is a complete
one-byte text key `"a"` followed by end-of-file where the value should
begin — an `UnexpectedEof` in the middle of a record — yet the iterator
of `SSTableReader<(String, String)>` yields `None` (clean termination)
instead of the error item the claim requires. -/
theorem c7_counterexample : nextTextPair [0x61, 0x61] = none := rfl

/-- C7 (amended): the iterator translates every `UnexpectedEof` into
`None`, wherever the EOF occurs: at the start of a record (as the claim
states), but also at any strict truncation of a record — after the key
or inside a length-prefixed payload — where the claim instead demands an
error item.  Only non-EOF errors surface as `Some(Err(..))`. -/
theorem c7_eof_always_terminates_iteration :
    nextTextPair [] = none ∧
    (∀ kk vv : List Nat, kk.length < 2 ^ 64 → isValidUtf8 kk = true →
      vv.length < 2 ^ 64 → ∀ m : Nat, m < (writeCborText kk ++ writeCborText vv).length →
        nextTextPair ((writeCborText kk ++ writeCborText vv).take m) = none) ∧
    (∀ (l : List Nat) (e : RErr), e ≠ .eof → readTextRecord l = .error e →
      nextTextPair l = some (.error e)) := by
  refine ⟨rfl, fun kk vv hkl hku hvl m hm => ?_, fun l e he hr => ?_⟩
  · rw [nextTextPair, readTextRecord_trunc kk vv hkl hku hvl m hm]
  · rw [nextTextPair, hr]
    cases e
    · exact absurd rfl he
    · rfl

/-- Witness for C7 (amended): key `"a"`, value `"b"`, truncated after
the key (2 of 4 bytes) yields `None`; the stream `[0x61, 0xFF]` (a text
item whose payload `0xFF` is invalid UTF-8) yields an error item. -/
theorem c7_eof_always_terminates_iteration_witness :
    nextTextPair ((writeCborText [0x61] ++ writeCborText [0x62]).take 2) = none ∧
    nextTextPair [0x61, 0xFF] = some (.error .other) :=
  ⟨c7_eof_always_terminates_iteration.2.1 [0x61] [0x62] (by decide) (by decide) (by decide)
      2 (by decide),
   c7_eof_always_terminates_iteration.2.2 [0x61, 0xFF] .other (by decide) rfl⟩


/-! ## Comparator lemmas: `listCmp`, `cborCmp` and the key orders -/

theorem compare_swap_lin {α : Type} [LinearOrder α] (a b : α) :
    compare a b = (compare b a).swap := by
  rcases lt_trichotomy a b with h | h | h
  · rw [compare_lt_iff_lt.mpr h, (compare_gt_iff_gt.mpr h : compare b a = .gt)]
    rfl
  · subst h
    rw [compare_eq_iff_eq.mpr rfl]
    rfl
  · rw [compare_gt_iff_gt.mpr h, (compare_lt_iff_lt.mpr h : compare b a = .lt)]
    rfl

theorem listCmp_eq_iff : ∀ a b : List Nat, listCmp a b = .eq ↔ a = b := by
  intro a
  induction a with
  | nil => intro b; cases b <;> simp [listCmp]
  | cons x ta ih =>
    intro b
    cases b with
    | nil => simp [listCmp]
    | cons y tb =>
      rw [listCmp]
      rcases hxy : compare x y with _ | _ | _
      · simp only []
        constructor
        · intro h; cases h
        · intro h
          injection h with h1 _
          rw [compare_eq_iff_eq.mpr h1] at hxy
          cases hxy
      · have hx : x = y := compare_eq_iff_eq.mp hxy
        subst hx
        simp [ih tb]
      · simp only []
        constructor
        · intro h; cases h
        · intro h
          injection h with h1 _
          rw [compare_eq_iff_eq.mpr h1] at hxy
          cases hxy

theorem listCmp_swap : ∀ a b : List Nat, listCmp a b = (listCmp b a).swap := by
  intro a
  induction a with
  | nil => intro b; cases b <;> rfl
  | cons x ta ih =>
    intro b
    cases b with
    | nil => rfl
    | cons y tb =>
      rw [listCmp, listCmp, compare_swap_lin x y]
      rcases compare y x with _ | _ | _
      · rfl
      · exact ih tb
      · rfl

theorem listCmp_lt_trans : ∀ a b c : List Nat,
    listCmp a b = .lt → listCmp b c = .lt → listCmp a c = .lt := by
  intro a
  induction a with
  | nil =>
    intro b c hab hbc
    cases b with
    | nil => cases hab
    | cons y tb =>
      cases c with
      | nil => cases hbc
      | cons z tc => rfl
  | cons x ta ih =>
    intro b c hab hbc
    cases b with
    | nil => cases hab
    | cons y tb =>
      cases c with
      | nil => cases hbc
      | cons z tc =>
        rw [listCmp] at hab hbc ⊢
        rcases hxy : compare x y with _ | _ | _ <;> rw [hxy] at hab <;> dsimp only at hab
        · rcases hyz : compare y z with _ | _ | _ <;> rw [hyz] at hbc <;> dsimp only at hbc
          · have hxz : x < z := lt_trans (compare_lt_iff_lt.mp hxy) (compare_lt_iff_lt.mp hyz)
            rw [compare_lt_iff_lt.mpr hxz]
          · have hy : y = z := compare_eq_iff_eq.mp hyz
            rw [← hy, hxy]
          · cases hbc
        · have hx : x = y := compare_eq_iff_eq.mp hxy
          subst hx
          rcases hyz : compare x z with _ | _ | _ <;> rw [hyz] at hbc <;> dsimp only at hbc ⊢
          · exact ih tb tc hab hbc
          · cases hbc
        · cases hab

theorem cborCmp_eq_iff (a b : List Nat) : cborCmp a b = .eq ↔ a = b := by
  rw [cborCmp]
  by_cases h : a.length = b.length
  · rw [if_pos h]
    exact listCmp_eq_iff a b
  · rw [if_neg h]
    constructor
    · intro hc
      exact absurd (compare_eq_iff_eq.mp hc) h
    · intro hc
      subst hc
      exact absurd rfl h

theorem cborCmp_swap (a b : List Nat) : cborCmp a b = (cborCmp b a).swap := by
  rw [cborCmp, cborCmp]
  by_cases h : a.length = b.length
  · rw [if_pos h, if_pos h.symm]
    exact listCmp_swap a b
  · rw [if_neg h, if_neg (fun hh => h hh.symm)]
    exact compare_swap_lin _ _

theorem cborCmp_lt_trans (a b c : List Nat) (hab : cborCmp a b = .lt)
    (hbc : cborCmp b c = .lt) : cborCmp a c = .lt := by
  rw [cborCmp] at hab hbc ⊢
  by_cases h1 : a.length = b.length
  · rw [if_pos h1] at hab
    by_cases h2 : b.length = c.length
    · rw [if_pos h2] at hbc
      rw [if_pos (h1.trans h2)]
      exact listCmp_lt_trans a b c hab hbc
    · rw [if_neg h2] at hbc
      rw [if_neg (fun hh => h2 (h1 ▸ hh))]
      rw [h1]
      exact hbc
  · rw [if_neg h1] at hab
    have hl1 : a.length < b.length := compare_lt_iff_lt.mp hab
    by_cases h2 : b.length = c.length
    · rw [if_pos h2] at hbc
      rw [if_neg (fun hh => h1 (hh.trans h2.symm))]
      exact compare_lt_iff_lt.mpr (h2 ▸ hl1)
    · rw [if_neg h2] at hbc
      have hl2 : b.length < c.length := compare_lt_iff_lt.mp hbc
      rw [if_neg (by omega)]
      exact compare_lt_iff_lt.mpr (by omega)

theorem getNumBytesForU64_mono {a b : Nat} (h : a ≤ b) :
    getNumBytesForU64 a ≤ getNumBytesForU64 b := by
  unfold getNumBytesForU64
  split_ifs <;> omega

theorem writeCborText_length (s : List Nat) :
    (writeCborText s).length = 1 + getNumBytesForU64 s.length + s.length := by
  rw [writeCborText, List.length_append, writeCborHead_length]

theorem writeCborText_inj {a b : List Nat} (h : writeCborText a = writeCborText b) :
    a = b := by
  have hlen : (writeCborText a).length = (writeCborText b).length := by rw [h]
  rw [writeCborText_length, writeCborText_length] at hlen
  have hab : a.length = b.length := by
    rcases lt_trichotomy a.length b.length with hl | hl | hl
    · have := getNumBytesForU64_mono (le_of_lt hl)
      omega
    · exact hl
    · have := getNumBytesForU64_mono (le_of_lt hl)
      omega
  rw [writeCborText, writeCborText, hab] at h
  exact List.append_cancel_left h

theorem cborTextCmp_eq_iff (a b : List Nat) : cborTextCmp a b = .eq ↔ a = b := by
  rw [cborTextCmp, cborCmp_eq_iff]
  exact ⟨fun h => writeCborText_inj h, fun h => by rw [h]⟩

theorem cborTextCmp_swap (a b : List Nat) : cborTextCmp a b = (cborTextCmp b a).swap :=
  cborCmp_swap _ _

theorem cborTextCmp_lt_trans {a b c : List Nat} (hab : cborTextCmp a b = .lt)
    (hbc : cborTextCmp b c = .lt) : cborTextCmp a c = .lt :=
  cborCmp_lt_trans _ _ _ hab hbc

theorem sortTextCmp_eq_iff (a b : List Nat × Nat) : sortTextCmp a b = .eq ↔ a = b := by
  rw [sortTextCmp]
  rcases h : cborTextCmp a.1 b.1 with _ | _ | _
  · simp only []
    constructor
    · intro hc; cases hc
    · intro hc
      rw [hc, cborTextCmp_eq_iff b.1 b.1 |>.mpr rfl] at h
      cases h
  · have h1 : a.1 = b.1 := (cborTextCmp_eq_iff _ _).mp h
    simp only []
    rw [compare_eq_iff_eq]
    constructor
    · intro h2
      exact Prod.ext h1 h2
    · intro h2
      rw [h2]
  · simp only []
    constructor
    · intro hc; cases hc
    · intro hc
      rw [hc, cborTextCmp_eq_iff b.1 b.1 |>.mpr rfl] at h
      cases h

theorem sortTextCmp_swap (a b : List Nat × Nat) :
    sortTextCmp a b = (sortTextCmp b a).swap := by
  rw [sortTextCmp, sortTextCmp, cborTextCmp_swap a.1 b.1]
  rcases cborTextCmp b.1 a.1 with _ | _ | _
  · rfl
  · exact compare_swap_lin _ _
  · rfl

theorem sortTextCmp_lt_trans {a b c : List Nat × Nat} (hab : sortTextCmp a b = .lt)
    (hbc : sortTextCmp b c = .lt) : sortTextCmp a c = .lt := by
  rw [sortTextCmp] at hab hbc ⊢
  rcases h1 : cborTextCmp a.1 b.1 with _ | _ | _ <;> rw [h1] at hab
  · rcases h2 : cborTextCmp b.1 c.1 with _ | _ | _ <;> rw [h2] at hbc
    · rw [cborTextCmp_lt_trans h1 h2]
    · have he2 := (cborTextCmp_eq_iff _ _).mp h2
      have h3 : cborTextCmp a.1 c.1 = Ordering.lt := he2 ▸ h1
      rw [h3]
    · cases hbc
  · have he : a.1 = b.1 := (cborTextCmp_eq_iff _ _).mp h1
    rcases h2 : cborTextCmp b.1 c.1 with _ | _ | _ <;> rw [h2] at hbc
    · rw [he, h2]
    · have he2 : b.1 = c.1 := (cborTextCmp_eq_iff _ _).mp h2
      rw [he.trans he2, (cborTextCmp_eq_iff _ _).mpr rfl]
      exact compare_lt_iff_lt.mpr (lt_trans (compare_lt_iff_lt.mp hab) (compare_lt_iff_lt.mp hbc))
    · cases hbc
  · cases hab


/-! ## The `sort_text` order: bridges and structural facts -/

theorem lexLt_irrefl : ∀ l : List Nat, ¬ LexLt l l := by
  intro l
  induction l with
  | nil => intro h; exact h
  | cons x t ih =>
    intro h
    rcases h with h | ⟨_, h⟩
    · exact lt_irrefl x h
    · exact ih h

theorem listCmp_lt_iff_lexLt : ∀ a b : List Nat, listCmp a b = .lt ↔ LexLt a b := by
  intro a
  induction a with
  | nil =>
    intro b
    cases b with
    | nil => simp [listCmp, LexLt]
    | cons y tb => simp [listCmp, LexLt]
  | cons x ta ih =>
    intro b
    cases b with
    | nil => simp [listCmp, LexLt]
    | cons y tb =>
      rw [listCmp, LexLt]
      rcases hxy : compare x y with _ | _ | _ <;> dsimp only
      · have hlt : x < y := compare_lt_iff_lt.mp hxy
        simp [hlt]
      · have heq : x = y := compare_eq_iff_eq.mp hxy
        subst heq
        simp [lt_irrefl, ih tb]
      · have hgt : y < x := compare_gt_iff_gt.mp hxy
        constructor
        · intro h; cases h
        · intro h
          rcases h with h | ⟨h, _⟩
          · omega
          · omega

theorem cborCmp_lt_iff (a b : List Nat) :
    cborCmp a b = .lt ↔ a.length < b.length ∨ (a.length = b.length ∧ listCmp a b = .lt) := by
  rw [cborCmp]
  by_cases h : a.length = b.length
  · rw [if_pos h]
    simp [h]
  · rw [if_neg h]
    rw [compare_lt_iff_lt]
    constructor
    · intro hl; exact Or.inl hl
    · intro hl
      rcases hl with hl | ⟨hl, _⟩
      · exact hl
      · exact absurd hl h

theorem sortTextLe_iff_spec (a b : List Nat × Nat) :
    sortTextLe a b ↔ specKeyOffsetLe a b := by
  rw [sortTextLe, sortTextCmp, specKeyOffsetLe]
  rcases h : cborTextCmp a.1 b.1 with _ | _ | _ <;> dsimp only
  · have hx := (cborCmp_lt_iff _ _).mp h
    rw [← listCmp_lt_iff_lexLt]
    constructor
    · intro _
      rcases hx with hx | ⟨hx, hx2⟩
      · exact Or.inl hx
      · exact Or.inr ⟨hx, Or.inl hx2⟩
    · intro _
      intro hcon
      cases hcon
  · have hx : writeCborText a.1 = writeCborText b.1 := (cborCmp_eq_iff _ _).mp h
    constructor
    · intro hle
      refine Or.inr ⟨by rw [hx], Or.inr ⟨hx, ?_⟩⟩
      rcases hcc : compare a.2 b.2 with _ | _ | _
      · exact le_of_lt (compare_lt_iff_lt.mp hcc)
      · exact le_of_eq (compare_eq_iff_eq.mp hcc)
      · exact absurd hcc hle
    · intro _ hcon
      have hgt : b.2 < a.2 := compare_gt_iff_gt.mp hcon
      rcases ‹_ ∨ _› with hl | ⟨_, hl | ⟨_, hl⟩⟩
      · rw [hx] at hl
        exact lt_irrefl _ hl
      · rw [hx] at hl
        rw [← listCmp_lt_iff_lexLt] at hl
        rw [(listCmp_eq_iff _ _).mpr rfl] at hl
        cases hl
      · omega
  · have hswap : cborTextCmp b.1 a.1 = .lt := by
      have hsw := cborTextCmp_swap a.1 b.1
      rw [h] at hsw
      rcases hs : cborTextCmp b.1 a.1 with _ | _ | _
      · rfl
      · rw [hs] at hsw
        exact absurd hsw (by decide)
      · rw [hs] at hsw
        exact absurd hsw (by decide)
    have hx := (cborCmp_lt_iff _ _).mp hswap
    constructor
    · intro hcon
      exact absurd rfl hcon
    · intro hcon
      exfalso
      rcases hcon with hl | ⟨hl, hll | ⟨hll, _⟩⟩
      · rcases hx with hx | ⟨hx, _⟩ <;> omega
      · rcases hx with hx | ⟨hx, hx2⟩
        · omega
        · rw [← listCmp_lt_iff_lexLt] at hll
          have := listCmp_lt_trans _ _ _ hll hx2
          rw [(listCmp_eq_iff _ _).mpr rfl] at this
          cases this
      · have ha : a.1 = b.1 := writeCborText_inj hll
        rw [ha] at hswap
        rw [(cborTextCmp_eq_iff b.1 b.1).mpr rfl] at hswap
        cases hswap

instance : IsTotal (List Nat × Nat) sortTextLe := by
  constructor
  intro a b
  by_cases h : sortTextCmp a b = .gt
  · right
    rw [sortTextLe, sortTextCmp_swap b a, h]
    intro hc
    cases hc
  · left
    exact h

instance : IsTrans (List Nat × Nat) sortTextLe := by
  constructor
  intro a b c hab hbc
  rw [sortTextLe] at hab hbc ⊢
  rcases h1 : sortTextCmp a b with _ | _ | _
  · rcases h2 : sortTextCmp b c with _ | _ | _
    · rw [sortTextCmp_lt_trans h1 h2]
      intro hc; cases hc
    · have hb : b = c := (sortTextCmp_eq_iff _ _).mp h2
      rw [← hb, h1]
      intro hc; cases hc
    · exact absurd h2 hbc
  · have hb : a = b := (sortTextCmp_eq_iff _ _).mp h1
    rw [hb]
    exact hbc
  · exact absurd h1 hab

instance : IsAntisymm (List Nat × Nat) sortTextLe := by
  constructor
  intro a b hab hba
  rw [sortTextLe] at hab hba
  rcases h1 : sortTextCmp a b with _ | _ | _
  · exfalso
    apply hba
    rw [sortTextCmp_swap b a, h1]
    rfl
  · exact (sortTextCmp_eq_iff _ _).mp h1
  · exact absurd h1 hab

/-! ## Claim C6: `cbor_sort` -/

/-- C6: `cbor_sort` orders a list of `(key, offset)` pairs by the
canonical byte order of the encoded key — shorter encoding less,
equal-length encodings lexicographic byte-by-byte — with ties between
equal keys broken by ascending offset; it permutes its input, it is
idempotent, and on lists of distinct pairs it is deterministic: any
permutation of the same pairs sorts to the same list. -/
theorem c6_cbor_sort_canonical (l : List (List Nat × Nat)) :
    (sortText l).Perm l ∧
    (sortText l).Pairwise specKeyOffsetLe ∧
    sortText (sortText l) = sortText l ∧
    (∀ l2 : List (List Nat × Nat), l.Nodup → l.Perm l2 → sortText l = sortText l2) := by
  refine ⟨List.perm_insertionSort sortTextLe l, ?_, ?_, ?_⟩
  · exact (List.sorted_insertionSort sortTextLe l).imp
      (fun h => (sortTextLe_iff_spec _ _).mp h)
  · exact (List.sorted_insertionSort sortTextLe l).insertionSort_eq
  · intro l2 _ hperm
    exact List.eq_of_perm_of_sorted
      (((List.perm_insertionSort sortTextLe l).trans hperm).trans
        (List.perm_insertionSort sortTextLe l2).symm)
      (List.sorted_insertionSort sortTextLe l)
      (List.sorted_insertionSort sortTextLe l2)

/-- Witness for C6 at a concrete list: keys `"d"`, `"a"`, `"bc"` with
offsets, sorted canonically (`"bc"` last despite `"b" < "d"` naturally:
its encoding is longer); duplicates of `"a"` keep ascending offsets. -/
theorem c6_cbor_sort_canonical_witness :
    (sortText [([100], 0), ([97], 7), ([98, 99], 3), ([97], 2)]).Perm
        [([100], 0), ([97], 7), ([98, 99], 3), ([97], 2)] ∧
    (sortText [([100], 0), ([97], 7), ([98, 99], 3), ([97], 2)]).Pairwise specKeyOffsetLe ∧
    sortText (sortText [([100], 0), ([97], 7), ([98, 99], 3), ([97], 2)]) =
      sortText [([100], 0), ([97], 7), ([98, 99], 3), ([97], 2)] ∧
    sortText [([100], 0), ([97], 7), ([98, 99], 3), ([97], 2)] =
      sortText [([97], 2), ([97], 7), ([98, 99], 3), ([100], 0)] := by
  have h := c6_cbor_sort_canonical [([100], 0), ([97], 7), ([98, 99], 3), ([97], 2)]
  exact ⟨h.1, h.2.1, h.2.2.1,
    h.2.2.2 [([97], 2), ([97], 7), ([98, 99], 3), ([100], 0)] (by decide) (by decide)⟩


/-! ## Binary search: loop invariants and specification -/

theorem bsLoop_spec (g : Nat → Ordering) (n : Nat)
    (hmono : ∀ i j, i ≤ j → j < n → g i = .gt → g j = .gt) :
    ∀ fuel size base : Nat, 1 ≤ size → size ≤ fuel → base + size ≤ n →
      (base = 0 ∨ g base ≠ .gt) → (base + size = n ∨ g (base + size) = .gt) →
      base ≤ bsLoop g fuel base size ∧ bsLoop g fuel base size + 1 ≤ base + size ∧
      (bsLoop g fuel base size = 0 ∨ g (bsLoop g fuel base size) ≠ .gt) ∧
      (bsLoop g fuel base size + 1 = n ∨ g (bsLoop g fuel base size + 1) = .gt) := by
  intro fuel
  induction fuel with
  | zero =>
    intro size base h1 h2 _ _ _
    omega
  | succ fuel ih =>
    intro size base h1 h2 h3 h4 h5
    rw [bsLoop]
    by_cases hle : size ≤ 1
    · rw [if_pos hle]
      have hsz : size = 1 := by omega
      subst hsz
      exact ⟨le_refl _, le_refl _, h4, h5⟩
    · rw [if_neg hle]
      dsimp only
      have h2lt : 2 ≤ size := by omega
      by_cases hg : g (base + size / 2) = .gt
      · rw [if_pos hg]
        have hrec := ih (size - size / 2) base (by omega) (by omega) (by omega) h4 ?hend
        case hend =>
          by_cases hn : base + (size - size / 2) = n
          · exact Or.inl hn
          · exact Or.inr (hmono (base + size / 2) (base + (size - size / 2)) (by omega)
              (by omega) hg)
        exact ⟨hrec.1, by omega, hrec.2.2.1, hrec.2.2.2⟩
      · rw [if_neg hg]
        have hrec := ih (size - size / 2) (base + size / 2) (by omega) (by omega) (by omega)
          (Or.inr hg) ?hend
        case hend =>
          have heq : base + size / 2 + (size - size / 2) = base + size := by omega
          rw [heq]
          exact h5
        refine ⟨by omega, by omega, hrec.2.2.1, ?_⟩
        have heq : base + size / 2 + (size - size / 2) = base + size := by omega
        rw [heq] at hrec
        exact hrec.2.2.2

theorem binarySearchBy_spec (g : Nat → Ordering) (n : Nat)
    (hmono_gt : ∀ i j, i ≤ j → j < n → g i = .gt → g j = .gt)
    (hmono_lt : ∀ i j, i ≤ j → j < n → g j = .lt → g i = .lt) :
    (∀ i, binarySearchBy g n = .ok i → i < n ∧ g i = .eq) ∧
    (∀ p, binarySearchBy g n = .error p → p ≤ n ∧ (∀ j, j < p → g j = .lt) ∧
      (∀ j, p ≤ j → j < n → g j = .gt)) := by
  by_cases hn : n = 0
  · subst hn
    rw [binarySearchBy, if_pos rfl]
    constructor
    · intro i h
      cases h
    · intro p h
      injection h with h
      subst h
      exact ⟨le_refl 0, fun j hj => absurd hj (by omega), fun j _ hj => absurd hj (by omega)⟩
  · have hspec := bsLoop_spec g n hmono_gt n n 0 (by omega) (by omega) (by omega)
      (Or.inl rfl) (Or.inl (by omega))
    rw [binarySearchBy, if_neg hn]
    rcases hspec with ⟨_, hlt, hb0, hend⟩
    rcases hgb : g (bsLoop g n 0 n) with _ | _ | _
    · constructor
      · intro i h
        cases h
      · intro p h
        injection h with h
        subst h
        refine ⟨by omega, fun j hj => ?_, fun j hj hjn => ?_⟩
        · exact hmono_lt j (bsLoop g n 0 n) (by omega) (by omega) hgb
        · rcases hend with hend | hend
          · omega
          · exact hmono_gt (bsLoop g n 0 n + 1) j (by omega) hjn hend
    · constructor
      · intro i h
        injection h with h
        subst h
        exact ⟨by omega, hgb⟩
      · intro p h
        cases h
    · have hb00 : bsLoop g n 0 n = 0 := by
        rcases hb0 with h | h
        · exact h
        · exact absurd hgb h
      constructor
      · intro i h
        cases h
      · intro p h
        injection h with h
        subst h
        rw [hb00] at hgb
        refine ⟨by omega, fun j hj => ?_, fun j hj hjn => ?_⟩
        · rw [hb00] at hj
          omega
        · exact hmono_gt 0 j (by omega) hjn hgb

theorem cborTextCmp_antisymm {a b : List Nat} (h1 : cborTextCmp a b ≠ .gt)
    (h2 : cborTextCmp b a ≠ .gt) : a = b := by
  rcases h : cborTextCmp a b with _ | _ | _
  · exfalso
    apply h2
    have hsw := cborTextCmp_swap b a
    rcases hs : cborTextCmp b a with _ | _ | _
    · rw [hs, h] at hsw
      cases hsw
    · rw [hs, h] at hsw
      cases hsw
    · rfl
  · exact (cborTextCmp_eq_iff a b).mp h
  · exact absurd h h1

theorem cborTextCmp_compat {a b s : List Nat} (hab : cborTextCmp a b ≠ .gt) :
    (cborTextCmp a s = .gt → cborTextCmp b s = .gt) ∧
    (cborTextCmp b s = .lt → cborTextCmp a s = .lt) := by
  rcases h1 : cborTextCmp a b with _ | _ | _
  · constructor
    · intro hgt
      rcases h2 : cborTextCmp b s with _ | _ | _
      · have := cborTextCmp_lt_trans h1 h2
        rw [this] at hgt
        cases hgt
      · have hbs : b = s := (cborTextCmp_eq_iff b s).mp h2
        rw [← hbs] at hgt
        rw [h1] at hgt
        cases hgt
      · rfl
    · intro hlt
      exact cborTextCmp_lt_trans h1 hlt
  · have hab2 : a = b := (cborTextCmp_eq_iff a b).mp h1
    subst hab2
    exact ⟨fun h => h, fun h => h⟩
  · exact absurd h1 hab

theorem countP_of_prefix {α : Type} (pred : α → Bool) :
    ∀ (l : List α) (p : Nat), p ≤ l.length →
      (∀ j (hj : j < l.length), pred (l.get ⟨j, hj⟩) = true ↔ j < p) →
      l.countP pred = p := by
  intro l
  induction l with
  | nil =>
    intro p hp _
    have hz : p = 0 := by simpa using hp
    subst hz
    rfl
  | cons a t ih =>
    intro p hp hchar
    rw [List.countP_cons]
    rcases p with _ | q
    · have ha : pred a = false := by
        have := hchar 0 (by simp)
        simp at this
        simp [this]
      have ht : t.countP pred = 0 := by
        apply ih 0 (by omega)
        intro j hj
        have := hchar (j + 1) (by simp; omega)
        simp at this ⊢
        simpa using this
      simp [ht, ha]
    · have ha : pred a = true := by
        have := hchar 0 (by simp)
        simpa using this.mpr (by omega)
      have ht : t.countP pred = q := by
        apply ih q (by simp at hp; omega)
        intro j hj
        have := hchar (j + 1) (by simp; omega)
        simp at this ⊢
        constructor
        · intro h
          have := this.mp h
          omega
        · intro h
          exact this.mpr (by omega)
      simp [ht, ha]

theorem stepBack_spec (l : List (List Nat × Nat)) (seek : List Nat)
    (hs : l.Pairwise (fun a b => cborTextCmp a.1 b.1 ≠ .gt)) :
    ∀ b, b < l.length → (l.getD b ([], 0)).1 = seek →
      stepBackForDuplicates l b ≤ b ∧
      (l.getD (stepBackForDuplicates l b) ([], 0)).1 = seek ∧
      (∀ j, j < stepBackForDuplicates l b → (l.getD j ([], 0)).1 ≠ seek) := by
  have hpair : ∀ i j, i < j → ∀ (hj : j < l.length),
      cborTextCmp (l.getD i ([], 0)).1 (l.getD j ([], 0)).1 ≠ .gt := by
    intro i j hij hj
    have hi : i < l.length := by omega
    rw [List.getD_eq_getElem l _ hi, List.getD_eq_getElem l _ hj]
    exact List.pairwise_iff_get.mp hs ⟨i, hi⟩ ⟨j, hj⟩ hij
  intro b
  induction b with
  | zero =>
    intro _ hb
    exact ⟨le_refl 0, hb, fun j hj => by simp [stepBackForDuplicates] at hj⟩
  | succ b ih =>
    intro hblen hkey
    have hbl : b < l.length := by omega
    have hD1 : l.getD b ([], 0) = l[b] := List.getD_eq_getElem l _ hbl
    have hD2 : l.getD (b + 1) ([], 0) = l[b + 1] := List.getD_eq_getElem l _ hblen
    rw [stepBackForDuplicates]
    have hget1 : l.get? b = some l[b] := by
      rw [List.get?_eq_get hbl]
      simp [List.get_eq_getElem]
    have hget2 : l.get? (b + 1) = some l[b + 1] := by
      rw [List.get?_eq_get hblen]
      simp [List.get_eq_getElem]
    rw [hget1, hget2]
    dsimp only
    by_cases heq : l[b].1 = l[b + 1].1
    · rw [if_pos heq]
      have hkb : (l.getD b ([], 0)).1 = seek := by
        rw [hD1]
        have hkeyE : l[b + 1].1 = seek := by
          rw [← hD2]
          exact hkey
        exact heq.trans hkeyE
      have hih := ih hbl hkb
      exact ⟨by omega, hih.2.1, hih.2.2⟩
    · rw [if_neg heq]
      refine ⟨le_refl _, hkey, fun j hj hjk => ?_⟩
      have hjb : j ≤ b := by omega
      have hkeyE : l[b + 1].1 = seek := by
        rw [← hD2]
        exact hkey
      have hkb : l[b].1 = seek := by
        rcases Nat.eq_or_lt_of_le hjb with hjb2 | hjb2
        · rw [← hD1, ← hjb2]
          exact hjk
        · have hp1 := hpair j b hjb2 hbl
          have hp2 := hpair b (b + 1) (by omega) hblen
          rw [hjk] at hp1
          rw [hD1] at hp1 hp2
          rw [hD2, hkeyE] at hp2
          exact cborTextCmp_antisymm hp2 hp1
      exact heq (hkb.trans hkeyE.symm)


/-! ## Claim C5: canonical binary search returns the first match -/

/-- C5: on a list of `(key, offset)` pairs sorted in CBOR-canonical
order, `binary_search_text_first` returns `Ok i` with `i` the smallest
index whose key equals the target (even with duplicates) when the
target is present, and `Err p` with `p` the insertion position — the
number of keys canonically below the target — when it is absent. -/
theorem c5_binary_search_first (l : List (List Nat × Nat)) (seek : List Nat)
    (hs : l.Pairwise (fun a b => cborTextCmp a.1 b.1 ≠ .gt)) :
    (seek ∈ l.map Prod.fst →
      binarySearchTextFirst l seek = .ok (l.findIdx (fun p => decide (p.1 = seek)))) ∧
    (seek ∉ l.map Prod.fst →
      binarySearchTextFirst l seek =
        .error (l.countP (fun p => decide (cborTextCmp p.1 seek = .lt)))) := by
  have hpair : ∀ i j, i < j → ∀ (hj : j < l.length),
      cborTextCmp (l.getD i ([], 0)).1 (l.getD j ([], 0)).1 ≠ .gt := by
    intro i j hij hj
    have hi : i < l.length := by omega
    rw [List.getD_eq_getElem l _ hi, List.getD_eq_getElem l _ hj]
    exact List.pairwise_iff_get.mp hs ⟨i, hi⟩ ⟨j, hj⟩ hij
  have hm1 : ∀ i j, i ≤ j → j < l.length →
      (fun i => cborTextCmp (l.getD i ([], 0)).1 seek) i = .gt →
      (fun i => cborTextCmp (l.getD i ([], 0)).1 seek) j = .gt := by
    intro i j hij hj hgt
    rcases Nat.eq_or_lt_of_le hij with h | h
    · rw [← h]
      exact hgt
    · exact (cborTextCmp_compat (hpair i j h hj)).1 hgt
  have hm2 : ∀ i j, i ≤ j → j < l.length →
      (fun i => cborTextCmp (l.getD i ([], 0)).1 seek) j = .lt →
      (fun i => cborTextCmp (l.getD i ([], 0)).1 seek) i = .lt := by
    intro i j hij hj hlt
    rcases Nat.eq_or_lt_of_le hij with h | h
    · rw [h]
      exact hlt
    · exact (cborTextCmp_compat (hpair i j h hj)).2 hlt
  have hbs := binarySearchBy_spec (fun i => cborTextCmp (l.getD i ([], 0)).1 seek)
    l.length hm1 hm2
  have hmem_ex : seek ∈ l.map Prod.fst → ∃ j, ∃ (hj : j < l.length),
      (l.getD j ([], 0)).1 = seek := by
    intro hmem
    obtain ⟨a, ha, hfst⟩ := List.mem_map.mp hmem
    obtain ⟨idx, hidx⟩ := List.mem_iff_get.mp ha
    refine ⟨idx.val, idx.isLt, ?_⟩
    rw [List.getD_eq_getElem l _ idx.isLt, ← List.get_eq_getElem, hidx]
    exact hfst
  constructor
  · intro hmem
    obtain ⟨j, hj, hkj⟩ := hmem_ex hmem
    rcases hres : binarySearchBy (fun i => cborTextCmp (l.getD i ([], 0)).1 seek) l.length
      with p | b
    · exfalso
      have herr := hbs.2 p hres
      by_cases hjp : j < p
      · have := herr.2.1 j hjp
        dsimp only at this
        rw [hkj, (cborTextCmp_eq_iff seek seek).mpr rfl] at this
        cases this
      · have := herr.2.2 j (by omega) hj
        dsimp only at this
        rw [hkj, (cborTextCmp_eq_iff seek seek).mpr rfl] at this
        cases this
    · have hok := hbs.1 b hres
      have hkb : (l.getD b ([], 0)).1 = seek := by
        have := hok.2
        dsimp only at this
        exact (cborTextCmp_eq_iff _ _).mp this
      have hsb := stepBack_spec l seek hs b hok.1 hkb
      rw [binarySearchTextFirst, hres]
      have hfi : l.findIdx (fun p => decide (p.1 = seek)) = stepBackForDuplicates l b := by
        have hlt : stepBackForDuplicates l b < l.length := by
          have := hsb.1
          omega
        apply (List.findIdx_eq hlt).mpr
        constructor
        · have := hsb.2.1
          rw [List.getD_eq_getElem l _ hlt] at this
          simpa using this
        · intro j2 hj2
          have := hsb.2.2 j2 hj2
          rw [List.getD_eq_getElem l _ (by omega : j2 < l.length)] at this
          simpa using this
      rw [hfi]
      rfl
  · intro hnmem
    have hne : ∀ j, j < l.length → (l.getD j ([], 0)).1 ≠ seek := by
      intro j hj hcon
      refine hnmem (List.mem_map.mpr ⟨l[j], List.getElem_mem hj, ?_⟩)
      rw [← List.getD_eq_getElem l ([], 0) hj]
      exact hcon
    rcases hres : binarySearchBy (fun i => cborTextCmp (l.getD i ([], 0)).1 seek) l.length
      with p | b
    · have herr := hbs.2 p hres
      rw [binarySearchTextFirst, hres]
      have hcount : l.countP (fun p => decide (cborTextCmp p.1 seek = .lt)) = p := by
        apply countP_of_prefix _ l p herr.1
        intro j hj
        have hD : l.getD j ([], 0) = l.get ⟨j, hj⟩ := by
          rw [List.getD_eq_getElem l _ hj, List.get_eq_getElem]
        constructor
        · intro hp
          by_contra hjp
          have hgt := herr.2.2 j (by omega) hj
          dsimp only at hgt
          rw [hD] at hgt
          have hp2 : cborTextCmp (l.get ⟨j, hj⟩).1 seek = .lt := by
            simpa [List.get_eq_getElem] using hp
          rw [hp2] at hgt
          cases hgt
        · intro hjp
          have hlt := herr.2.1 j hjp
          dsimp only at hlt
          rw [hD] at hlt
          simp only [List.get_eq_getElem] at hlt
          simp [hlt]
      rw [hcount]
      rfl
    · exfalso
      have hok := hbs.1 b hres
      have := hok.2
      dsimp only at this
      exact hne b hok.1 ((cborTextCmp_eq_iff _ _).mp this)

/-- Witness for C5 on the sorted list with duplicated key `"a"` at
indices 0–2 and key `"b"` at index 3: searching `"a"` lands on the
first duplicate, searching the absent two-byte key `"cc"` yields its
insertion position 4 (every shorter key is canonically below it). -/
theorem c5_binary_search_first_witness :
    binarySearchTextFirst [([97], 10), ([97], 20), ([97], 30), ([98], 40)] [97] = .ok 0 ∧
    binarySearchTextFirst [([97], 10), ([97], 20), ([97], 30), ([98], 40)] [99, 99]
      = .error 4 := by
  constructor
  · have h := (c5_binary_search_first [([97], 10), ([97], 20), ([97], 30), ([98], 40)]
      [97] (by decide)).1 (by decide)
    simpa using h
  · have h := (c5_binary_search_first [([97], 10), ([97], 20), ([97], 30), ([98], 40)]
      [99, 99] (by decide)).2 (by decide)
    simpa using h


/-! ## Writer/index lemmas (claim C1) -/

theorem writeCborText_pos (s : List Nat) : 0 < (writeCborText s).length := by
  rw [writeCborText_length]
  omega

theorem foldl_appendTextPair : ∀ (es : List (List Nat × List Nat)) (d i : List Nat),
    es.foldl appendTextPair (d, i) = (d ++ specData es, i ++ specIndexBytes d.length es) := by
  intro es
  induction es with
  | nil =>
    intro d i
    simp [specData, specIndexBytes]
  | cons e es ih =>
    intro d i
    rw [List.foldl_cons]
    rw [show appendTextPair (d, i) e =
      (d ++ writeCborText e.1 ++ writeCborText e.2,
       i ++ writeCborText e.1 ++ writeCborUnsignedInteger d.length) from rfl]
    rw [ih]
    rw [specData, specIndexBytes]
    simp [List.append_assoc, List.length_append]
    congr 1
    omega

theorem writeTable_eq (es : List (List Nat × List Nat)) :
    writeTable es = (specData es, specIndexBytes 0 es) := by
  rw [writeTable, foldl_appendTextPair es [] []]
  simp

theorem specData_append (a b : List (List Nat × List Nat)) :
    specData (a ++ b) = specData a ++ specData b := by
  induction a with
  | nil => simp [specData]
  | cons e t ih =>
    rw [List.cons_append, specData, specData, ih]
    simp [List.append_assoc]

theorem specEntries_length (es : List (List Nat × List Nat)) :
    ∀ base, (specEntries base es).length = es.length := by
  induction es with
  | nil => intro base; rfl
  | cons e t ih =>
    intro base
    rw [specEntries]
    simp [ih]

theorem specEntries_getD (es : List (List Nat × List Nat)) :
    ∀ i base, i < es.length →
      (specEntries base es).getD i ([], 0) =
        ((es.getD i ([], [])).1, base + (specData (es.take i)).length) := by
  induction es with
  | nil =>
    intro i base hi
    simp at hi
  | cons e t ih =>
    intro i base hi
    rcases i with _ | j
    · simp [specEntries, specData]
    · rw [specEntries, List.getD_cons_succ, List.getD_cons_succ,
        ih j _ (by simpa using hi), List.take_succ_cons, specData]
      simp [List.length_append]
      omega

theorem readIndexTextGo_spec : ∀ (es : List (List Nat × List Nat)) (base fuel : Nat),
    (∀ e ∈ es, isValidUtf8 e.1 = true ∧ e.1.length < 2 ^ 64) →
    base + (specData es).length < 2 ^ 64 →
    (specIndexBytes base es).length ≤ fuel →
    readIndexTextGo fuel (specIndexBytes base es) = .ok (specEntries base es) := by
  intro es
  induction es with
  | nil =>
    intro base fuel _ _ _
    show readIndexTextGo fuel [] = Except.ok []
    cases fuel <;> rfl
  | cons e t ih =>
    intro base fuel hval hlen hfuel
    have hk := hval e (List.mem_cons_self e t)
    have hdl : (specData (e :: t)).length =
        (writeCborText e.1).length + (writeCborText e.2).length + (specData t).length := by
      rw [specData]
      simp [List.length_append]
      omega
    have hbase : base < 2 ^ 64 := by omega
    have hsplit : specIndexBytes base (e :: t) =
        writeCborText e.1 ++ writeCborUnsignedInteger base ++
          specIndexBytes (base + (writeCborText e.1).length + (writeCborText e.2).length) t :=
      rfl
    have hilen : (specIndexBytes base (e :: t)).length =
        (writeCborText e.1).length + (writeCborUnsignedInteger base).length +
          (specIndexBytes
            (base + (writeCborText e.1).length + (writeCborText e.2).length) t).length := by
      rw [hsplit, List.length_append, List.length_append]
    have hkey : readCborText (specIndexBytes base (e :: t)) =
        .ok (e.1, writeCborUnsignedInteger base ++
          specIndexBytes (base + (writeCborText e.1).length + (writeCborText e.2).length) t) := by
      rw [hsplit, List.append_assoc]
      exact readCborText_writeCborText e.1 _ hk.2 hk.1
    have hnum := readCborU64_writeCborUnsignedInteger base hbase
      (specIndexBytes (base + (writeCborText e.1).length + (writeCborText e.2).length) t)
    have hkpos := writeCborText_pos e.1
    rcases fuel with _ | f
    · omega
    rcases hsp : specIndexBytes base (e :: t) with _ | ⟨b0, r0⟩
    · exfalso
      have hl := congrArg List.length hsp
      rw [hilen] at hl
      simp only [List.length_nil] at hl
      omega
    · rw [readIndexTextGo]
      rw [← hsp, hkey]
      dsimp only
      rw [hnum]
      dsimp only
      rw [ih _ f (fun x hx => hval x (List.mem_cons_of_mem e hx)) (by omega) (by omega)]
      rw [specEntries]
      rfl

theorem readIndexText_spec (es : List (List Nat × List Nat)) (base : Nat)
    (hval : ∀ e ∈ es, isValidUtf8 e.1 = true ∧ e.1.length < 2 ^ 64)
    (hlen : base + (specData es).length < 2 ^ 64) :
    readIndexText (specIndexBytes base es) = .ok (specEntries base es) :=
  readIndexTextGo_spec es base (specIndexBytes base es).length hval hlen (le_refl _)

theorem specData_drop_read (es : List (List Nat × List Nat))
    (hval : ∀ e ∈ es, isValidUtf8 e.1 = true ∧ e.1.length < 2 ^ 64 ∧
      isValidUtf8 e.2 = true ∧ e.2.length < 2 ^ 64) :
    ∀ i, i < es.length →
      readTextRecord ((specData es).drop ((specData (es.take i)).length)) =
        .ok (es.getD i ([], []), specData (es.drop (i + 1))) := by
  intro i hi
  have hsplit : specData es = specData (es.take i) ++ specData (es.drop i) := by
    rw [← specData_append, List.take_append_drop]
  rw [hsplit, List.drop_left]
  have hcons : es.drop i = es.getD i ([], []) :: es.drop (i + 1) := by
    rw [List.getD_eq_getElem es _ hi]
    exact List.drop_eq_getElem_cons hi
  rw [hcons, specData]
  have hmem : es.getD i ([], []) ∈ es := by
    rw [List.getD_eq_getElem es _ hi]
    exact List.getElem_mem hi
  have he := hval _ hmem
  exact readTextRecord_enc _ _ _ he.2.1 he.1 he.2.2.2 he.2.2.1

/-! ## Claim C1: every index entry points at its record -/

/-- C1: for every sequence of `(key, value)` pairs appended through the
SSTable writer, loading the index file yields exactly one `(k_i, o_i)`
entry per append, in append order, where `o_i` is the data-writer
stream position before any byte of record `i` was written; and seeking
the data reader to `o_i` and reading one record yields exactly the pair
`(k_i, v_i)` appended `i`-th. -/
theorem c1_index_points_at_records (es : List (List Nat × List Nat))
    (hval : ∀ e ∈ es, isValidUtf8 e.1 = true ∧ e.1.length < 2 ^ 64 ∧
      isValidUtf8 e.2 = true ∧ e.2.length < 2 ^ 64)
    (hdlen : ((writeTable es).1).length < 2 ^ 64) :
    readIndexText (writeTable es).2 = .ok (specEntries 0 es) ∧
    (specEntries 0 es).length = es.length ∧
    (∀ i, i < es.length →
      (specEntries 0 es).getD i ([], 0) =
        ((es.getD i ([], [])).1, ((writeTable (es.take i)).1).length) ∧
      readTextRecord (seekTo (writeTable es).1 (((specEntries 0 es).getD i ([], 0)).2)) =
        .ok (es.getD i ([], []), (writeTable (es.drop (i + 1))).1)) := by
  have hd : (writeTable es).1 = specData es := by rw [writeTable_eq]
  have hx : (writeTable es).2 = specIndexBytes 0 es := by rw [writeTable_eq]
  have hdlen2 : (specData es).length < 2 ^ 64 := by
    rw [← hd]
    exact hdlen
  refine ⟨?_, specEntries_length es 0, ?_⟩
  · rw [hx]
    exact readIndexText_spec es 0 (fun e he => ⟨(hval e he).1, (hval e he).2.1⟩)
      (by omega)
  · intro i hi
    have hoff := specEntries_getD es i 0 hi
    constructor
    · rw [hoff, writeTable_eq]
      simp
    · rw [hoff, hd, writeTable_eq]
      dsimp only
      have := specData_drop_read es hval i hi
      rw [show (0 : Nat) + (specData (es.take i)).length = (specData (es.take i)).length
        from by omega]
      exact this

/-- Witness for C1 on the two-record table `("a", "1"), ("b", "2")`:
the index decodes to entries at offsets 0 and 6, and the record read at
the offset of entry 1 is `("b", "2")`. -/
theorem c1_index_points_at_records_witness :
    readIndexText (writeTable [([97], [49]), ([98], [50])]).2 =
      .ok (specEntries 0 [([97], [49]), ([98], [50])]) ∧
    (specEntries 0 [([97], [49]), ([98], [50])]).getD 1 ([], 0) =
      (([98], [50]).1, ((writeTable ([([97], [49]), ([98], [50])].take 1)).1).length) ∧
    readTextRecord (seekTo (writeTable [([97], [49]), ([98], [50])]).1
        (((specEntries 0 [([97], [49]), ([98], [50])]).getD 1 ([], 0)).2)) =
      .ok (([98], [50]), (writeTable ([([97], [49]), ([98], [50])].drop 2)).1) := by
  have h := c1_index_points_at_records [([97], [49]), ([98], [50])] (by decide) (by decide)
  have h1 := (h.2.2 1 (by decide)).1
  have h2 := (h.2.2 1 (by decide)).2
  exact ⟨h.1, h1, h2⟩


/-! ## Claims C8 and C9: the `get` engine evaluated at its failing inputs -/

/-- C8: the claim (and §4.E of the spec) says a per-file index miss
produces no output for that file but the scan continues with the
remaining paths.  Evaluating the embedded `get` at two tables — the
first containing only key `"a"`, the second containing the looked-up
key `"b"` — shows the source's `return Ok(())` aborts the whole
multi-path scan: the combined call emits nothing, although the second
table alone emits its `("b", "2")` record. -/
theorem c8_index_miss_aborts_scan :
    getModel
      [⟨true, (writeTable [([97], [49])]).1, some (writeTable [([97], [49])]).2⟩,
       ⟨true, (writeTable [([98], [50])]).1, some (writeTable [([98], [50])]).2⟩] [98] none
      = .ok [] ∧
    getModel [⟨true, (writeTable [([98], [50])]).1, some (writeTable [([98], [50])]).2⟩]
      [98] none = .ok [Emission.pair [98] [50]] :=
  ⟨rfl, rfl⟩

/-- C9: the claim says the indexed fast path starts at the first
matching index position and emits all 5 values of a key with 5
duplicates when `n = None`.  Evaluating the embedded `get` on a table
of five `("foo", _)` records shows `get_index_entry_by_key`'s plain
`binary_search_by` (no step-back) lands on the last duplicate, so the
fast path emits exactly one value — the fifth (`"b4"`) — for
`n = None`, and the same single (wrong) value for `n = Some 1` instead
of the first. -/
theorem c9_fast_path_misses_duplicates :
    getModel [⟨true,
      (writeTable [([102, 111, 111], [98, 48]), ([102, 111, 111], [98, 49]),
        ([102, 111, 111], [98, 50]), ([102, 111, 111], [98, 51]),
        ([102, 111, 111], [98, 52])]).1,
      some (writeTable [([102, 111, 111], [98, 48]), ([102, 111, 111], [98, 49]),
        ([102, 111, 111], [98, 50]), ([102, 111, 111], [98, 51]),
        ([102, 111, 111], [98, 52])]).2⟩] [102, 111, 111] none
      = .ok [Emission.pair [102, 111, 111] [98, 52]] ∧
    getModel [⟨true,
      (writeTable [([102, 111, 111], [98, 48]), ([102, 111, 111], [98, 49]),
        ([102, 111, 111], [98, 50]), ([102, 111, 111], [98, 51]),
        ([102, 111, 111], [98, 52])]).1,
      some (writeTable [([102, 111, 111], [98, 48]), ([102, 111, 111], [98, 49]),
        ([102, 111, 111], [98, 50]), ([102, 111, 111], [98, 51]),
        ([102, 111, 111], [98, 52])]).2⟩] [102, 111, 111] (some 1)
      = .ok [Emission.pair [102, 111, 111] [98, 52]] :=
  ⟨rfl, rfl⟩


/-! ## Merge loop invariants (claim C3) -/

theorem entryWeight_pos {K V : Type} (e : HeapEntry K V) : 1 ≤ entryWeight e := by
  rw [entryWeight]
  omega

theorem tailRecords_cons {K V : Type} [LinearOrder K] (e : HeapEntry K V)
    (hwf : EntryWF e) (v : V) (hv : e.input.readAt e.offset = some (e.key, v)) :
    tailRecords e = (e.key, v) ::
      (e.input.index.drop (e.cursor + 1)).filterMap (fun p => e.input.readAt p.2) := by
  obtain ⟨hlt, hget⟩ := List.get?_eq_some.mp hwf.2.2
  rw [tailRecords, List.drop_eq_getElem_cons hlt, List.filterMap_cons]
  have hge : e.input.index[e.cursor] = (e.key, e.offset) := by
    rw [← hget]
    rfl
  rw [hge]
  dsimp only
  rw [hv]

theorem mergeLoop_none_eq {K V : Type} [LinearOrder K] (heap : List (HeapEntry K V))
    (h : popMax heapTupleCmp heap = none) : mergeLoop heap = some [] := by
  rw [mergeLoop, h]

theorem mergeLoop_spec {K V : Type} [LinearOrder K] :
    ∀ (n : Nat) (heap : List (HeapEntry K V)), heapWeight heap ≤ n →
      (∀ e ∈ heap, EntryWF e) →
      ∃ out, mergeLoop heap = some out ∧ out.Perm (heapRecords heap) ∧
        out.Pairwise (fun a b => a.1 ≤ b.1) ∧
        (∀ kv ∈ out, ∃ e0 ∈ heap, e0.key ≤ kv.1) := by
  intro n
  induction n with
  | zero =>
    intro heap hw _
    rcases hpop : popMax heapTupleCmp heap with _ | ⟨e, rest⟩
    · have hnil := popMax_nil_of_none heapTupleCmp hpop
      subst hnil
      exact ⟨[], mergeLoop_none_eq [] hpop, by simp [heapRecords], List.Pairwise.nil, by simp⟩
    · exfalso
      have hperm := popMax_perm heapTupleCmp hpop
      have hsum : heapWeight heap = entryWeight e + heapWeight rest := by
        have hs := (hperm.map entryWeight).sum_eq
        simpa [heapWeight] using hs
      have := entryWeight_pos e
      omega
  | succ n ih =>
    intro heap hw hwf
    rcases hpop : popMax heapTupleCmp heap with _ | ⟨e, rest⟩
    · have hnil := popMax_nil_of_none heapTupleCmp hpop
      subst hnil
      exact ⟨[], mergeLoop_none_eq [] hpop, by simp [heapRecords], List.Pairwise.nil, by simp⟩
    · have hperm := popMax_perm heapTupleCmp hpop
      have hein : e ∈ heap := hperm.mem_iff.mpr (List.mem_cons_self e rest)
      have hewf : EntryWF e := hwf e hein
      have hrestwf : ∀ x ∈ rest, EntryWF x := fun x hx =>
        hwf x (hperm.mem_iff.mpr (List.mem_cons_of_mem e hx))
      have hmemidx : (e.key, e.offset) ∈ e.input.index := by
        obtain ⟨hlt, hget⟩ := List.get?_eq_some.mp hewf.2.2
        rw [← hget]
        exact List.get_mem _ _ _
      obtain ⟨v, hv⟩ := hewf.1 (e.key, e.offset) hmemidx
      have hsum : heapWeight heap = entryWeight e + heapWeight rest := by
        have hs := (hperm.map entryWeight).sum_eq
        simpa [heapWeight] using hs
      have hclt : e.cursor < e.input.index.length := (List.get?_eq_some.mp hewf.2.2).1
      have hmin := popMax_min_key hpop
      have hRp : (heapRecords heap).Perm (tailRecords e ++ heapRecords rest) := by
        have hfl := (hperm.map tailRecords).flatten
        simpa [heapRecords] using hfl
      have hbound : ∀ (y : K × V), (∃ e2 ∈ rest, e2.key ≤ y.1) → e.key ≤ y.1 := by
        intro y hy
        obtain ⟨e2, he2, hle⟩ := hy
        exact le_trans (hmin e2 he2) hle
      rw [mergeLoop, hpop]
      dsimp only
      rw [hv]
      dsimp only
      rcases hnext : e.input.index.get? (e.cursor + 1) with _ | ⟨k2, o2⟩
      · -- this input is exhausted: the entry is dropped
        have hdrop : e.input.index.drop (e.cursor + 1) = [] :=
          List.drop_eq_nil_of_le (List.get?_eq_none.mp hnext)
        have htr : tailRecords e = [(e.key, v)] := by
          rw [tailRecords_cons e hewf v hv, hdrop]
          rfl
        have hguard : heapWeight rest < heapWeight heap := by
          have := entryWeight_pos e
          omega
        rw [dif_pos hguard]
        obtain ⟨out2, hml, hperm2, hsort2, hlb2⟩ := ih rest (by omega) hrestwf
        rw [hml]
        refine ⟨(e.key, v) :: out2, rfl, ?_, ?_, ?_⟩
        · have h1 : ((e.key, v) :: out2).Perm ((e.key, v) :: heapRecords rest) :=
            hperm2.cons _
          have h2 : tailRecords e ++ heapRecords rest = (e.key, v) :: heapRecords rest := by
            rw [htr]
            rfl
          exact h1.trans (h2 ▸ hRp.symm)
        · exact List.Pairwise.cons (fun y hy => hbound y (hlb2 y hy)) hsort2
        · intro kv hkv
          rcases List.mem_cons.mp hkv with rfl | hkv2
          · exact ⟨e, hein, le_refl _⟩
          · exact ⟨e, hein, hbound kv (hlb2 kv hkv2)⟩
      · -- re-queue the entry at the next cursor
        have hclt2 : e.cursor + 1 < e.input.index.length := (List.get?_eq_some.mp hnext).1
        have hks : e.key ≤ k2 := by
          obtain ⟨h1l, h1g⟩ := List.get?_eq_some.mp hewf.2.2
          obtain ⟨h2l, h2g⟩ := List.get?_eq_some.mp hnext
          have hp := List.pairwise_iff_get.mp hewf.2.1 ⟨e.cursor, h1l⟩ ⟨e.cursor + 1, h2l⟩
            (by exact Fin.mk_lt_mk.mpr (by omega))
          rw [h1g, h2g] at hp
          exact hp
        have hewf2 : EntryWF (⟨k2, e.input, e.cursor + 1, o2⟩ : HeapEntry K V) :=
          ⟨hewf.1, hewf.2.1, hnext⟩
        have hwrest2 : heapWeight (rest ++ [(⟨k2, e.input, e.cursor + 1, o2⟩ : HeapEntry K V)]) =
            heapWeight rest + entryWeight (⟨k2, e.input, e.cursor + 1, o2⟩ : HeapEntry K V) := by
          simp [heapWeight, List.map_append, List.sum_append]
        have hguard : heapWeight (rest ++ [(⟨k2, e.input, e.cursor + 1, o2⟩ : HeapEntry K V)]) <
            heapWeight heap := by
          have he1 : entryWeight e = e.input.index.length - e.cursor + 1 := rfl
          have he2 : entryWeight (⟨k2, e.input, e.cursor + 1, o2⟩ : HeapEntry K V) =
              e.input.index.length - (e.cursor + 1) + 1 := rfl
          rw [hwrest2, hsum]
          omega
        rw [dif_pos hguard]
        obtain ⟨out2, hml, hperm2, hsort2, hlb2⟩ :=
          ih (rest ++ [(⟨k2, e.input, e.cursor + 1, o2⟩ : HeapEntry K V)]) (by omega)
          (fun x hx => by
            rcases List.mem_append.mp hx with hx1 | hx1
            · exact hrestwf x hx1
            · rw [List.mem_singleton.mp hx1]
              exact hewf2)
        rw [hml]
        have htr : tailRecords e =
            (e.key, v) :: tailRecords (⟨k2, e.input, e.cursor + 1, o2⟩ : HeapEntry K V) := by
          rw [tailRecords_cons e hewf v hv]
          rfl
        have hR2 : heapRecords (rest ++ [(⟨k2, e.input, e.cursor + 1, o2⟩ : HeapEntry K V)]) =
            heapRecords rest ++ tailRecords (⟨k2, e.input, e.cursor + 1, o2⟩ : HeapEntry K V) := by
          simp [heapRecords, List.map_append, List.flatten_append]
        have hbound2 : ∀ (y : K × V),
            (∃ e2 ∈ rest ++ [(⟨k2, e.input, e.cursor + 1, o2⟩ : HeapEntry K V)],
              e2.key ≤ y.1) → e.key ≤ y.1 := by
          intro y hy
          obtain ⟨e2, he2, hle⟩ := hy
          rcases List.mem_append.mp he2 with h2 | h2
          · exact le_trans (hmin e2 h2) hle
          · rw [List.mem_singleton.mp h2] at hle
            exact le_trans hks hle
        refine ⟨(e.key, v) :: out2, rfl, ?_, ?_, ?_⟩
        · have h1 : ((e.key, v) :: out2).Perm ((e.key, v) :: (heapRecords rest ++
              tailRecords (⟨k2, e.input, e.cursor + 1, o2⟩ : HeapEntry K V))) :=
            (hR2 ▸ hperm2).cons _
          have h2 : ((e.key, v) :: (heapRecords rest ++
              tailRecords (⟨k2, e.input, e.cursor + 1, o2⟩ : HeapEntry K V))).Perm
              ((e.key, v) :: (tailRecords (⟨k2, e.input, e.cursor + 1, o2⟩ : HeapEntry K V) ++
                heapRecords rest)) :=
            List.Perm.cons _ List.perm_append_comm
          have h3 : tailRecords e ++ heapRecords rest =
              (e.key, v) :: (tailRecords (⟨k2, e.input, e.cursor + 1, o2⟩ : HeapEntry K V) ++
                heapRecords rest) := by
            rw [htr]
            rfl
          exact (h1.trans h2).trans (h3 ▸ hRp.symm)
        · exact List.Pairwise.cons (fun y hy => hbound2 y (hlb2 y hy)) hsort2
        · intro kv hkv
          rcases List.mem_cons.mp hkv with rfl | hkv2
          · exact ⟨e, hein, le_refl _⟩
          · exact ⟨e, hein, hbound2 kv (hlb2 kv hkv2)⟩


theorem mergeLoop_single {K V : Type} [LinearOrder K] :
    ∀ (n : Nat) (e : HeapEntry K V), entryWeight e ≤ n → EntryWF e →
      mergeLoop [e] = some (tailRecords e) := by
  intro n
  induction n with
  | zero =>
    intro e hwn _
    exact absurd hwn (by have := entryWeight_pos e; omega)
  | succ n ih =>
    intro e hwn hewf
    have hpop : popMax heapTupleCmp [e] = some (e, ([] : List (HeapEntry K V))) := rfl
    have hmemidx : (e.key, e.offset) ∈ e.input.index := by
      obtain ⟨hlt, hget⟩ := List.get?_eq_some.mp hewf.2.2
      rw [← hget]
      exact List.get_mem _ _ _
    obtain ⟨v, hv⟩ := hewf.1 (e.key, e.offset) hmemidx
    rw [mergeLoop, hpop]
    dsimp only
    rw [hv]
    dsimp only
    rcases hnext : e.input.index.get? (e.cursor + 1) with _ | ⟨k2, o2⟩
    · have hdrop : e.input.index.drop (e.cursor + 1) = [] :=
        List.drop_eq_nil_of_le (List.get?_eq_none.mp hnext)
      have hguard : heapWeight ([] : List (HeapEntry K V)) < heapWeight [e] := by
        have h1 := entryWeight_pos e
        simp only [heapWeight, List.map_nil, List.sum_nil, List.map_cons, List.sum_cons]
        omega
      rw [dif_pos hguard, mergeLoop_none_eq [] rfl, tailRecords_cons e hewf v hv, hdrop]
      rfl
    · have he1 : entryWeight e = e.input.index.length - e.cursor + 1 := rfl
      have he2 : entryWeight (⟨k2, e.input, e.cursor + 1, o2⟩ : HeapEntry K V) =
          e.input.index.length - (e.cursor + 1) + 1 := rfl
      have hclt2 : e.cursor + 1 < e.input.index.length := (List.get?_eq_some.mp hnext).1
      have hguard : heapWeight ([] ++ [(⟨k2, e.input, e.cursor + 1, o2⟩ : HeapEntry K V)]) <
          heapWeight [e] := by
        simp only [heapWeight, List.nil_append, List.map_cons, List.map_nil, List.sum_cons,
          List.sum_nil]
        omega
      dsimp only
      rw [dif_pos hguard, List.nil_append,
        ih (⟨k2, e.input, e.cursor + 1, o2⟩ : HeapEntry K V) (by omega)
          ⟨hewf.1, hewf.2.1, hnext⟩,
        tailRecords_cons e hewf v hv]
      rfl

theorem heapRecords_foldl {K V : Type} :
    ∀ (inputs : List (MergeInput K V)) (acc : List (HeapEntry K V)),
      heapRecords (inputs.foldl initHeapStep acc) =
        heapRecords acc ++ (inputs.map recordsOf).flatten := by
  intro inputs
  induction inputs with
  | nil =>
    intro acc
    simp
  | cons inp t ih =>
    intro acc
    rw [List.foldl_cons]
    rcases h0 : inp.index.get? 0 with _ | ⟨k, o⟩
    · have hnil : inp.index = [] :=
        List.length_eq_zero.mp (by have := List.get?_eq_none.mp h0; omega)
      have hstep : initHeapStep acc inp = acc := by
        unfold initHeapStep
        rw [h0]
      have hrec : recordsOf inp = [] := by
        rw [recordsOf, hnil]
        rfl
      rw [hstep, ih acc]
      simp [hrec]
    · have hstep : initHeapStep acc inp = acc ++ [(⟨k, inp, 0, o⟩ : HeapEntry K V)] := by
        unfold initHeapStep
        rw [h0]
      have htr : tailRecords (⟨k, inp, 0, o⟩ : HeapEntry K V) = recordsOf inp := by
        simp [tailRecords, recordsOf]
      rw [hstep, ih (acc ++ [(⟨k, inp, 0, o⟩ : HeapEntry K V)])]
      have hacc : heapRecords (acc ++ [(⟨k, inp, 0, o⟩ : HeapEntry K V)]) =
          heapRecords acc ++ recordsOf inp := by
        simp [heapRecords, List.map_append, List.flatten_append, htr]
      rw [hacc]
      simp

theorem initHeap_wf_aux {K V : Type} [LinearOrder K] :
    ∀ (inputs : List (MergeInput K V)) (acc : List (HeapEntry K V)),
      (∀ inp ∈ inputs, InputWF inp ∧ InputSorted inp) →
      (∀ e ∈ acc, EntryWF e) →
      ∀ e ∈ inputs.foldl initHeapStep acc, EntryWF e := by
  intro inputs
  induction inputs with
  | nil =>
    intro acc _ hacc
    exact hacc
  | cons inp t ih =>
    intro acc hin hacc
    rw [List.foldl_cons]
    refine ih (initHeapStep acc inp) (fun x hx => hin x (List.mem_cons_of_mem inp hx)) ?_
    intro e he
    rcases h0 : inp.index.get? 0 with _ | ⟨k, o⟩
    · unfold initHeapStep at he
      rw [h0] at he
      dsimp only at he
      exact hacc e he
    · unfold initHeapStep at he
      rw [h0] at he
      dsimp only at he
      rcases List.mem_append.mp he with h1 | h1
      · exact hacc e h1
      · rw [List.mem_singleton.mp h1]
        obtain ⟨hw, hs⟩ := hin inp (List.mem_cons_self inp t)
        exact ⟨hw, hs, h0⟩

/-- C3: merging inputs whose indexes are key-sorted and whose index
entries read back a record carrying the indexed key emits a sorted
permutation of the disjoint union of all input records; merging zero
inputs emits nothing and succeeds, and merging a single input emits
exactly its records in index order. -/
theorem c3_merge_sorted_union {K V : Type} [LinearOrder K]
    (inputs : List (MergeInput K V))
    (h : ∀ inp ∈ inputs, InputWF inp ∧ InputSorted inp) :
    (∃ out, merge inputs = some out ∧
        out.Perm ((inputs.map recordsOf).flatten) ∧
        out.Pairwise (fun a b => a.1 ≤ b.1)) ∧
    merge ([] : List (MergeInput K V)) = some [] ∧
    (∀ inp : MergeInput K V, InputWF inp → InputSorted inp →
        merge [inp] = some (recordsOf inp)) := by
  refine ⟨?_, ?_, ?_⟩
  · have hwf : ∀ e ∈ initHeap inputs, EntryWF e :=
      initHeap_wf_aux inputs [] h (fun e he => absurd he (List.not_mem_nil e))
    obtain ⟨out, hml, hperm, hsort, _⟩ :=
      mergeLoop_spec (heapWeight (initHeap inputs)) (initHeap inputs) (le_refl _) hwf
    refine ⟨out, hml, ?_, hsort⟩
    have hR : heapRecords (initHeap inputs) = (inputs.map recordsOf).flatten := by
      unfold initHeap
      rw [heapRecords_foldl inputs []]
      simp [heapRecords]
    exact hR ▸ hperm
  · show mergeLoop (initHeap ([] : List (MergeInput K V))) = some []
    exact mergeLoop_none_eq _ rfl
  · intro inp hw hs
    rcases h0 : inp.index.get? 0 with _ | ⟨k, o⟩
    · have hnil : inp.index = [] :=
        List.length_eq_zero.mp (by have := List.get?_eq_none.mp h0; omega)
      have hih : initHeap [inp] = [] := by
        unfold initHeap
        rw [List.foldl_cons, List.foldl_nil]
        unfold initHeapStep
        rw [h0]
      show mergeLoop (initHeap [inp]) = some (recordsOf inp)
      rw [hih, mergeLoop_none_eq [] rfl, recordsOf, hnil]
      rfl
    · have hih : initHeap [inp] = [(⟨k, inp, 0, o⟩ : HeapEntry K V)] := by
        unfold initHeap
        rw [List.foldl_cons, List.foldl_nil]
        unfold initHeapStep
        rw [h0]
        rfl
      have hewf : EntryWF (⟨k, inp, 0, o⟩ : HeapEntry K V) := ⟨hw, hs, h0⟩
      have htr : tailRecords (⟨k, inp, 0, o⟩ : HeapEntry K V) = recordsOf inp := by
        simp [tailRecords, recordsOf]
      show mergeLoop (initHeap [inp]) = some (recordsOf inp)
      rw [hih,
        mergeLoop_single (entryWeight (⟨k, inp, 0, o⟩ : HeapEntry K V)) _ (le_refl _) hewf,
        htr]

/-- Witness instantiating the merge theorem at two concrete inputs. -/
theorem c3_merge_sorted_union_witness :
    (∃ out, merge [mergeSampleA, mergeSampleB] = some out ∧
        out.Perm (([mergeSampleA, mergeSampleB].map recordsOf).flatten) ∧
        out.Pairwise (fun a b => a.1 ≤ b.1)) ∧
    merge ([] : List (MergeInput Nat Nat)) = some [] ∧
    (∀ inp : MergeInput Nat Nat, InputWF inp → InputSorted inp →
        merge [inp] = some (recordsOf inp)) :=
  c3_merge_sorted_union [mergeSampleA, mergeSampleB] (by
    intro inp hinp
    rcases List.mem_cons.mp hinp with rfl | hinp2
    · constructor
      · intro p hp
        simp only [mergeSampleA] at hp
        rcases List.mem_cons.mp hp with rfl | hp2
        · exact ⟨100, rfl⟩
        · obtain rfl := List.mem_singleton.mp hp2
          exact ⟨300, rfl⟩
      · exact (by decide : List.Pairwise (fun a b => a.1 ≤ b.1) mergeSampleA.index)
    · obtain rfl := List.mem_singleton.mp hinp2
      constructor
      · intro p hp
        obtain rfl := List.mem_singleton.mp hp
        exact ⟨200, rfl⟩
      · exact (by decide : List.Pairwise (fun a b => a.1 ≤ b.1) mergeSampleB.index))

end SSTables
